import Mathlib

/-!
Verification of the crawl-resume-archive pipeline of the openidb frontend
repository.  The Python scripts under `src/shamela-scraper/scripts` and
`src/scrapers/shamela/scripts` are shallowly embedded below as executable
Lean functions; theorems settle the specification claims about them.
-/

namespace Gaps

/-- Section numbers observed for one book: directly the list of integers
parsed from the `book_<id>_section_<n>.html` filenames found by the glob
(`find_section_numbers` in `find_missing_sections.py`). -/
abbrev Sections := List Nat

/-- Least element of a nonempty section list (`min(section_numbers)`). -/
def minSec (h : Nat) (t : List Nat) : Nat := t.foldl Nat.min h

/-- Greatest element of a nonempty section list (`max(section_numbers)`). -/
def maxSec (h : Nat) (t : List Nat) : Nat := t.foldl Nat.max h

/-- Embedding of `find_missing_sections` (find_missing_sections.py, lines 34-64): for a
book with at least one section, the sorted list
`sorted(set(range(min_section, max_section + 1)) - section_numbers)`;
for a book with no sections, the empty list. -/
def findMissingSections (sections : Sections) : List Nat :=
  match sections with
  | [] => []
  | h :: t =>
    let mn := minSec h t
    let mx := maxSec h t
    (List.range' mn (mx + 1 - mn)).filter (fun k => ¬ sections.contains k)

/-- Embedding of `MissingSectionsFiller.find_section_gaps` (fill_missing_sections.py,
lines 102-135): the sorted list
`sorted(set(range(1, max_section + 1)) - sections)` — the lower bound of the
scanned range is the constant 1, not the observed minimum. -/
def findSectionGaps (sections : Sections) : List Nat :=
  match sections with
  | [] => []
  | h :: t =>
    let mx := maxSec h t
    (List.range' 1 mx).filter (fun k => ¬ sections.contains k)

/-- The gap set in the words of the spec: the sorted list of sequence
numbers in `{observed min .. observed max}` for which no unit exists. -/
def specGaps (sections : Sections) : List Nat :=
  match sections with
  | [] => []
  | h :: t =>
    let mn := minSec h t
    let mx := maxSec h t
    (List.range' mn (mx + 1 - mn)).filter (fun k => ¬ sections.contains k)

end Gaps

namespace Verify

open Gaps

/-- Quality tier assigned by `verify_completeness`
(verify_completeness_final.py): the four result buckets
`perfect`, `complete_with_errors`, `missing_pages`, `failed`. -/
inductive Tier where
  | perfect
  | completeWithErrors
  | missingPages
  | failed
deriving DecidableEq, Repr

/-- The `missing_page_numbers` computation of `verify_completeness`
(verify_completeness_final.py, lines 70-76): nonempty page list and
positive expected count give
`sorted(set(range(min_page, min_page + expected_pages)) - actual_set)`,
otherwise the empty list. -/
def missingPageNumbers (expectedPages : Nat) (pages : List Nat) : List Nat :=
  match pages with
  | [] => []
  | h :: t =>
    if expectedPages > 0 then
      (List.range' (minSec h t) expectedPages).filter
        (fun k => ¬ pages.contains k)
    else []

/-- Classification of one book by `verify_completeness`
(verify_completeness_final.py, lines 49-97): `failed` status is bucketed
first; otherwise the book is `perfect` or `complete_with_errors` exactly
when `actual_pages == expected_pages` and no page of the expected range is
missing, split on whether the error list is empty; every other book goes
to `missing_pages`. -/
def classify (status : String) (expectedPages : Nat) (errors : List String)
    (pages : List Nat) : Tier :=
  if status = "failed" then .failed
  else
    let missing := missingPageNumbers expectedPages pages
    if pages.length = expectedPages ∧ missing = [] then
      if errors = [] then .perfect else .completeWithErrors
    else .missingPages

end Verify

namespace Crawl

/-- Abstraction of one fetched Shamela page as seen by
`ShamelaParallelCrawler.crawl_book` (crawl_all_html_parallel.py): the
length of the returned HTML and the clickable next-button target section,
when the parsed page has a next button (`find_all('a', class_='btn')`
scan, lines 209-221). `Option.none` as a site answer models
`_fetch_url` returning `None` after its retries are exhausted. -/
structure Page where
  size : Nat
  next : Option Nat
deriving DecidableEq, Repr

/-- What the crawl loop leaves behind: the units saved to the Unit Store
in order, and the accumulated `metadata['errors']`. -/
structure LoopOut where
  saved : List (Nat × Page)
  errors : List String
deriving DecidableEq, Repr

/-- The final result of `crawl_book`: the metadata status plus the loop
output. -/
structure CrawlResult where
  status : String
  saved : List (Nat × Page)
  errors : List String
deriving DecidableEq, Repr

/-- The `while current_url and current_url not in visited_urls` loop of
`ShamelaParallelCrawler.crawl_book` (crawl_all_html_parallel.py, lines
190-240).  A fetch failure or a body shorter than 500 bytes appends an
error and breaks; otherwise the page is saved, and the loop follows the
clickable next button if present.  `fuel` bounds the number of
iterations the model observes; `none` means the bound was hit before the
Python loop exited. -/
def crawlLoop (site : Nat → Option Page) : Nat → Option Nat → List Nat →
    List (Nat × Page) → List String → Nat → Option LoopOut
  | 0, _, _, _, _, _ => none
  | fuel + 1, cur, visited, saved, errors, pageNumber =>
    match cur with
    | none => some ⟨saved, errors⟩
    | some u =>
      if u ∈ visited then some ⟨saved, errors⟩
      else
        match site u with
        | none =>
          some ⟨saved, errors ++ [s!"Failed to fetch page {pageNumber}"]⟩
        | some p =>
          if p.size < 500 then
            some ⟨saved, errors ++ [s!"Failed to fetch page {pageNumber}"]⟩
          else
            crawlLoop site fuel p.next (u :: visited) (saved ++ [(u, p)])
              errors (pageNumber + 1)

/-- Embedding of `ShamelaParallelCrawler.crawl_book` (crawl_all_html_parallel.py,
lines 125-250).  `firstUrl = none` models the two early-failure paths
(TOC fetch failed / no content links), which set status `failed`;
otherwise the page loop runs and, however it exited, the status written
to the metadata afterwards is `complete` (line 242). -/
def crawlBook (site : Nat → Option Page) (firstUrl : Option Nat)
    (fuel : Nat) : Option CrawlResult :=
  match firstUrl with
  | none => some ⟨"failed", [], ["Failed to fetch TOC"]⟩
  | some u =>
    (crawlLoop site fuel (some u) [] [] [] 1).map
      fun out => ⟨"complete", out.saved, out.errors⟩

/-- The classified termination signal of the spec: the saved unit has no
clickable next-button control. -/
def hasNextFalse (p : Page) : Prop := p.next = none

end Crawl

namespace SerialCrawl

/-- Result of `ShamelaHTMLCrawler.crawl_book` (crawl_all_html.py): final
metadata status, the `total_pages` figure, the list of page numbers
saved, the number of content-page fetch attempts made, and the error
annotations. -/
structure Result where
  status : String
  totalPages : Nat
  saved : List Nat
  fetchCount : Nat
  errors : List String
deriving DecidableEq, Repr

/-- The `while consecutive_failures < max_consecutive_failures` loop of
`ShamelaHTMLCrawler.crawl_book` (crawl_all_html.py, lines 139-161).
`site n` is the length of the HTML returned for page `n`, `none` when
the fetch fails; a missing fetch or a body shorter than 100 bytes counts
as a consecutive failure and advances to the next page; a valid page is
saved, records `total_pages = page_num`, and resets the counter.
`fuel` bounds the iterations the model observes. -/
def fetchLoop (site : Nat → Option Nat) (maxConsecutiveFailures : Nat) :
    Nat → Nat → Nat → Nat → List Nat → Nat → Option (Nat × List Nat × Nat)
  | 0, _, _, _, _, _ => none
  | fuel + 1, pageNum, consecutiveFailures, totalPages, saved, fetchCount =>
    if consecutiveFailures < maxConsecutiveFailures then
      match site pageNum with
      | none =>
        fetchLoop site maxConsecutiveFailures fuel (pageNum + 1)
          (consecutiveFailures + 1) totalPages saved (fetchCount + 1)
      | some len =>
        if len < 100 then
          fetchLoop site maxConsecutiveFailures fuel (pageNum + 1)
            (consecutiveFailures + 1) totalPages saved (fetchCount + 1)
        else
          fetchLoop site maxConsecutiveFailures fuel (pageNum + 1) 0
            pageNum (saved ++ [pageNum]) (fetchCount + 1)
    else
      some (totalPages, saved, fetchCount)

/-- Embedding of `ShamelaHTMLCrawler.crawl_book` (crawl_all_html.py, lines 107-168):
a failed main-page fetch (`mainOk = false`) gives status `failed` with
an error annotation; otherwise the page loop runs with
`max_consecutive_failures = 3` starting at page 1, and afterwards the
status written is `complete` (line 163), with no error appended by the
loop. -/
def crawlBook (site : Nat → Option Nat) (mainOk : Bool) (fuel : Nat) :
    Option Result :=
  if mainOk then
    (fetchLoop site 3 fuel 1 0 0 [] 0).map
      fun (totalPages, saved, fetchCount) =>
        ⟨"complete", totalPages, saved, fetchCount, []⟩
  else
    some ⟨"failed", 0, [], 0, ["Failed to fetch main page"]⟩

/-- A fetch result the crawler counts as a consecutive failure: no HTML
returned, or a body shorter than 100 bytes. -/
def Invalid : Option Nat → Prop
  | none => True
  | some len => len < 100

end SerialCrawl

namespace Resume

/-- Abstraction of the content `page.content()` returns in
`ParallelCamoufoxCrawler.crawl_book` (crawl_camoufox_parallel.py): the
raw bytes plus the two marker tests the code applies to it (the
`404 Page Not Found` markers, lines 174 and 224, and the Cloudflare
challenge markers, lines 163 and 231). -/
structure Content where
  bytes : List Char
  notFound : Bool
  challenge : Bool
deriving DecidableEq, Repr

/-- One navigation outcome: `page.goto` raising a timeout, or a page
with its content. -/
inductive Fetch where
  | timeout
  | page (c : Content)
deriving DecidableEq, Repr

/-- The Unit Store as the crawler sees it: one file per section.  A
write is a cons; `lookup` returns the newest binding, so an overwrite
shadows the old bytes exactly as rewriting the file does. -/
abbrev Store := List (Nat × List Char)

/-- Writing `section_file_path` (crawl_camoufox_parallel.py,
`_save_html`). -/
def write (k : Nat) (v : List Char) (st : Store) : Store := (k, v) :: st

/-- Result of one `crawl_book` call: final metadata status, the Unit
Store afterwards, the sections navigated to (in order), and
`metadata['total_pages']`. -/
structure Result where
  status : String
  store : Store
  fetched : List Nat
  totalPages : Nat
deriving DecidableEq, Repr

/-- The `while consecutive_failures < max_consecutive_failures` loop of
`ParallelCamoufoxCrawler.crawl_book` (crawl_camoufox_parallel.py, lines
191-259), `max_consecutive_failures = 5`.  A section whose file already
exists is skipped without a navigation; otherwise the section is
navigated to: a timeout, a too-short body or a 404 page counts as a
consecutive failure; a challenge waits for `solve` (`none` = the user
did not solve it in time, which breaks the loop); a valid body is
written and resets the counter.  Returns the store, the navigated
sections and `total_pages`; `none` when `fuel` iterations were not
enough to observe the loop's exit. -/
def loop (site : Nat → Fetch) (solve : Option Content) :
    Nat → Nat → Nat → Store → List Nat → Nat →
    Option (Store × List Nat × Nat)
  | 0, _, _, _, _, _ => none
  | fuel + 1, current, cf, store, fetched, totalPages =>
    if cf < 5 then
      if (store.lookup current).isSome then
        loop site solve fuel (current + 1) cf store fetched (totalPages + 1)
      else
        match site current with
        | .timeout =>
          loop site solve fuel (current + 1) (cf + 1) store
            (fetched ++ [current]) totalPages
        | .page c =>
          if c.bytes.length < 500 then
            loop site solve fuel (current + 1) (cf + 1) store
              (fetched ++ [current]) totalPages
          else if c.notFound then
            loop site solve fuel (current + 1) (cf + 1) store
              (fetched ++ [current]) totalPages
          else if c.challenge then
            solve.elim (some (store, fetched ++ [current], totalPages))
              (fun c' =>
                loop site solve fuel (current + 1) 0
                  (write current c'.bytes store) (fetched ++ [current])
                  (totalPages + 1))
          else
            loop site solve fuel (current + 1) 0
              (write current c.bytes store) (fetched ++ [current])
              (totalPages + 1)
    else
      some (store, fetched, totalPages)

/-- Embedding of `ParallelCamoufoxCrawler.crawl_book` (crawl_camoufox_parallel.py,
lines 118-283).  A book whose metadata already says `complete` is
skipped outright.  Otherwise section 1 is always navigated to first
(line 157, `url = .../book/{book_id}/1`) and, when its content passes
the length/404 check, unconditionally written — even if the file for
section 1 already exists — before the loop starts at section 2. -/
def crawlBook (site : Nat → Fetch) (solve : Option Content)
    (metaComplete : Bool) (store₀ : Store) (fuel : Nat) : Option Result :=
  if metaComplete then some ⟨"skipped", store₀, [], 0⟩
  else
    match site 1 with
    | .timeout => some ⟨"failed", store₀, [1], 0⟩
    | .page c =>
      match (if c.challenge then solve else some c) with
      | none => some ⟨"failed", store₀, [1], 0⟩
      | some cc =>
        if 500 < cc.bytes.length ∧ cc.notFound = false then
          (loop site solve fuel 2 0 (write 1 cc.bytes store₀) [1] 1).map
            fun (st, f, tp) => ⟨"complete", st, f, tp⟩
        else
          some ⟨"failed", store₀, [1], 0⟩

end Resume

namespace Archive

/-- The URL reconstructed for one page,
`f"https://shamela.ws/book/{book_id}/{section_id}"`
(convert_to_warc.py, line 265). -/
def pageUrl (bookId : String) (sectionId : Nat) : String :=
  "https://shamela.ws/book/" ++ bookId ++ "/" ++ toString sectionId

/-- The bytes `warcio` places in front of the payload of one `response`
record written by `_write_warc_record` (convert_to_warc.py, lines
159-201): the WARC header block built from the target URI and the
`WARC-Date` timestamp, followed by the HTTP `200 OK` status line and
headers carrying the declared content type and content length.  The
exact rendering is the library's; what the theorems use is that a
nonempty, length-determined header precedes the payload bytes inside
the record. -/
def headerBytes (url timestamp : String) (payloadLen : Nat) : List Char :=
  "WARC/1.0\r\nWARC-Type: response\r\nWARC-Target-URI: ".toList ++
    url.toList ++ "\r\nWARC-Date: ".toList ++ timestamp.toList ++
    "\r\nContent-Type: application/http; msgtype=response\r\n".toList ++
    "HTTP/1.1 200 OK\r\nContent-Type: text/html; charset=utf-8\r\n".toList ++
    "Content-Length: ".toList ++ (toString payloadLen).toList ++
    "\r\n\r\n".toList

/-- One serialized WARC record: header block then raw payload bytes. -/
def recordBytes (url timestamp : String) (payload : List Char) : List Char :=
  headerBytes url timestamp payload.length ++ payload

/-- One CDX index row (convert_to_warc.py, lines 192-199): the record's
URL, the container file it went to (by `shamela-%05d` number), the
stream offset read with `tell()` immediately before writing, and
`len(html_bytes)` — the payload length. -/
structure CdxEntry where
  url : String
  warcFile : Nat
  offset : Nat
  length : Nat
deriving DecidableEq, Repr

/-- One book as the converter sees it: its id, the
`metadata['total_pages']` count, the crawl timestamp used for every
record, and the section files found by the glob, as
`(section_id, raw bytes)` in glob order. -/
structure Book where
  bookId : String
  expectedPages : Nat
  timestamp : String
  pages : List (Nat × List Char)
deriving DecidableEq, Repr

/-- Embedding of `_get_book_size_estimate` (convert_to_warc.py, lines 203-211): the
sum of the sizes of the book's section files. -/
def bookSize (b : Book) : Nat :=
  (b.pages.map (fun p => p.2.length)).sum

/-- State of the `ShamelaWARCConverter`: the closed container files (by
number), the currently open container stream, `current_warc_size`
(payload bytes written since it was opened), `warc_counter`, and the
accumulated `cdx_entries`. -/
structure ConvState where
  closed : List (Nat × List Char)
  current : Option (Nat × List Char)
  currentSize : Nat
  nextCounter : Nat
  cdx : List CdxEntry
deriving DecidableEq, Repr

/-- The fresh converter (convert_to_warc.py, `__init__`). -/
def initState : ConvState := ⟨[], none, 0, 1, []⟩

/-- Embedding of `_open_new_warc_file` (convert_to_warc.py, lines 115-140): the open
container, if any, is closed as it stands, and a new empty container
with the next file number is opened with its size counter reset. -/
def openNew (s : ConvState) : ConvState :=
  { closed := s.closed ++ s.current.toList
    current := some (s.nextCounter, [])
    currentSize := 0
    nextCounter := s.nextCounter + 1
    cdx := s.cdx }

/-- Embedding of `_write_warc_record` (convert_to_warc.py, lines 159-201): the offset
is `tell()` on the container stream before the record is written, the
record bytes are appended, `current_warc_size` grows by the payload
length, and one CDX entry `(url, file, offset, len(html_bytes))` is
appended.  With no open container the call is never reached by
`convert_book`; the state is returned unchanged. -/
def writeRecord (url timestamp : String) (payload : List Char)
    (s : ConvState) : ConvState :=
  match s.current with
  | none => s
  | some (num, stream) =>
    { s with
      current := some (num, stream ++ recordBytes url timestamp payload)
      currentSize := s.currentSize + payload.length
      cdx := s.cdx ++ [⟨url, num, stream.length, payload.length⟩] }

/-- Embedding of `ShamelaWARCConverter.convert_book` (convert_to_warc.py, lines
213-293): a book with no HTML files, or whose file count disagrees with
`metadata['total_pages']`, is rejected before anything is written;
otherwise a container is opened if none is, or rotated when the current
payload size plus the book's size estimate exceeds the bound, and then
every page of the book is written as one record. -/
def convertBook (maxSize : Nat) (b : Book) (s : ConvState) :
    Bool × ConvState :=
  if b.pages = [] then (false, s)
  else if b.pages.length ≠ b.expectedPages then (false, s)
  else
    let s1 :=
      match s.current with
      | none => openNew s
      | some _ => if s.currentSize + bookSize b > maxSize then openNew s else s
    let s2 := b.pages.foldl
      (fun acc p => writeRecord (pageUrl b.bookId p.1) b.timestamp p.2 acc) s1
    (true, s2)

/-- The conversion loop of `convert_all` (convert_to_warc.py, lines
408-414): books are converted in order and the loop stops at the first
failure. -/
def convertList (maxSize : Nat) : List Book → ConvState → ConvState
  | [], s => s
  | b :: bs, s =>
    let (ok, s') := convertBook maxSize b s
    if ok then convertList maxSize bs s' else s'

/-- Closing the final container (convert_to_warc.py, lines 420-423). -/
def closeFinal (s : ConvState) : ConvState :=
  { s with closed := s.closed ++ s.current.toList, current := none }

/-- The whole conversion run: convert every book starting from the
fresh converter, then close the final container. -/
def runConv (maxSize : Nat) (books : List Book) : ConvState :=
  closeFinal (convertList maxSize books initState)

/-- The bytes of container file `n` as the run left them: a closed
container's stream, or the still-open stream when `n` is the open
container's number. -/
def containerStream (s : ConvState) (n : Nat) : Option (List Char) :=
  match s.closed.lookup n with
  | some bytes => some bytes
  | none =>
    match s.current with
    | some (m, bytes) => if m = n then some bytes else none
    | none => none

/-- All records a list of books contributes, in conversion order:
`(url, timestamp, raw payload bytes)` per page. -/
def allRecords (books : List Book) : List (String × String × List Char) :=
  books.flatMap fun b =>
    b.pages.map fun p => (pageUrl b.bookId p.1, b.timestamp, p.2)

/-- Between `convert_book` calls every container holds at least one
record: closed streams are nonempty, and the open stream is nonempty
(opening happens inside `convert_book`, which always writes the book's
pages immediately afterwards). -/
def WF (s : ConvState) : Prop :=
  (∀ c ∈ s.closed, c.2 ≠ []) ∧ (∀ nb, s.current = some nb → nb.2 ≠ [])

/-- Internal sanity of the converter state: container file numbers are
below the counter and the open container's number is fresh, so
`containerStream` lookups are unambiguous. -/
def Good (s : ConvState) : Prop :=
  (∀ x ∈ s.closed, x.1 < s.nextCounter) ∧
  (∀ nb, s.current = some nb →
    nb.1 < s.nextCounter ∧ ∀ x ∈ s.closed, x.1 ≠ nb.1)

/-- The record for `(url, timestamp, payload)` sits in full at this
entry's offset of its container's stream. -/
def recAt (st : ConvState) (e : CdxEntry) (url timestamp : String)
    (payload : List Char) : Prop :=
  ∃ stream, containerStream st e.warcFile = some stream ∧
    recordBytes url timestamp payload <+: stream.drop e.offset

/-- The CDX rows of a state correspond 1:1, in order, to a list of
written records, each row carrying its record's URL and payload length
and locating the full record bytes in its container. -/
def Inv (st : ConvState) (written : List (String × String × List Char)) :
    Prop :=
  List.Forall₂
    (fun e w => e.url = w.1 ∧ e.length = w.2.2.length ∧
      recAt st e w.1 w.2.1 w.2.2)
    st.cdx written

/-- Stream growth between two converter states: every container stream
present before is present afterwards with the old bytes as a prefix. -/
def Mono (s s' : ConvState) : Prop :=
  ∀ m stream, containerStream s m = some stream →
    ∃ ext, containerStream s' m = some (stream ++ ext)

end Archive

namespace Durable

/-- Filesystem operations a durable write can perform.  `writeFile` is
an in-place `open(path, 'w'); write(content)`; `rename` is an atomic
`os.rename`-style move. -/
inductive FsOp where
  | writeFile (path : String) (content : String)
  | rename (src : String) (dst : String)
deriving DecidableEq, Repr

/-- Embedding of `ShamelaParallelCrawler._save_html` (crawl_all_html_parallel.py,
lines 115-118): one direct `open(filepath, 'w')` write of the HTML to
the final path. -/
def saveHtmlOps (filepath : String) (html : String) : List FsOp :=
  [.writeFile filepath html]

/-- Embedding of `ShamelaParallelCrawler._save_progress` (crawl_all_html_parallel.py,
lines 77-82): one direct `open(self.progress_file, 'w')` write of the
serialized ledger to the final path. -/
def saveProgressOps (progressFile : String) (serialized : String) :
    List FsOp :=
  [.writeFile progressFile serialized]

/-- The write discipline the spec demands of a durable write: the
content goes to a distinct temporary name first and the only touch of
the final path is an atomic rename. -/
def usesTempThenRename (ops : List FsOp) (finalPath : String) : Prop :=
  ∃ tmp content, tmp ≠ finalPath ∧
    ops = [.writeFile tmp content, .rename tmp finalPath]

/-- The `(path, partial content)` states a crash can leave visible at
`path`: an in-place `writeFile` truncates the file and then appends, so
every strict prefix of the content is a possible crash state of the
final path; a rename is atomic and exposes nothing partial. -/
def crashStates : FsOp → List (String × String)
  | .writeFile p c =>
    (List.range (c.length + 1)).map (fun n => (p, String.mk (c.toList.take n)))
  | .rename _ _ => []

end Durable

namespace Ledger

/-- What one `future.result()` of the `as_completed` loop in
`crawl_books_parallel` (crawl_all_html_parallel.py, lines 326-347)
yields: the book succeeded (`ok`), returned `False` (`err`), or raised
(`exn`). -/
inductive Outcome where
  | ok
  | err
  | exn
deriving DecidableEq, Repr

/-- The positions (1-based item counts) at which `_save_progress` runs
in `crawl_books_parallel` (crawl_all_html_parallel.py, lines 326-351):
within the loop a flush fires when `(completed + failed) % 10 == 0` —
but the exception branch (lines 343-347) appends to the ledger without
that check — and one final flush follows the loop (line 350). -/
def flushesAux (idx completed failed : Nat) : List Outcome → List Nat
  | [] => [idx]
  | o :: rest =>
    match o with
    | .ok =>
      (if (completed + 1 + failed) % 10 = 0 then [idx + 1] else []) ++
        flushesAux (idx + 1) (completed + 1) failed rest
    | .err =>
      (if (completed + (failed + 1)) % 10 = 0 then [idx + 1] else []) ++
        flushesAux (idx + 1) completed (failed + 1) rest
    | .exn => flushesAux (idx + 1) completed (failed + 1) rest

/-- Flush positions of a whole run. -/
def flushPoints (results : List Outcome) : List Nat :=
  flushesAux 0 0 0 results

/-- Completed-item count of a prefix of the run. -/
def completedCount (results : List Outcome) : Nat :=
  results.countP (· = .ok)

/-- The flush cadence in the words of the claim: immediately after every
N-th completed item (N = 10) the ledger is flushed. -/
def specFlushAfterEveryTenCompleted (results : List Outcome) : Prop :=
  ∀ i, i < results.length →
    results.getD i .exn = .ok →
    completedCount (results.take (i + 1)) % 10 = 0 →
    (i + 1) ∈ flushPoints results

instance (results : List Outcome) :
    Decidable (specFlushAfterEveryTenCompleted results) := by
  unfold specFlushAfterEveryTenCompleted
  exact Nat.decidableBallLT _ _

end Ledger

namespace NextButton

/-- Little-endian decimal digits of `n`, by fuel-bounded division;
`fuel = n` always suffices. -/
def decDigitsAux : Nat → Nat → List Nat
  | 0, _ => []
  | fuel + 1, n => if n = 0 then [] else n % 10 :: decDigitsAux fuel (n / 10)

/-- Decimal digit characters of `n`, most significant first — the
section id as it appears in the filename
`book_{book_id}_section_{section_id}.html` (unpadded `str(n)`). -/
def decRepr (n : Nat) : List Char :=
  if n = 0 then ['0']
  else (decDigitsAux n n).reverse.map (fun d => Char.ofNat (d + 48))

/-- The characters of one section filename as written by the crawler
(crawl_all_html_parallel.py, line 203). -/
def filenameChars (bookId : String) (n : Nat) : List Char :=
  ("book_" ++ bookId ++ "_section_").toList ++ decRepr n ++ ".html".toList

/-- Code-point-wise lexicographic strict order on character lists: how
Python compares the strings (and hence the `Path`s in one directory)
that `sorted(book_dir.glob(...))` orders. -/
def lexLt : List Char → List Char → Bool
  | [], [] => false
  | [], _ :: _ => true
  | _ :: _, [] => false
  | a :: as, b :: bs =>
    if a.toNat < b.toNat then true
    else if b.toNat < a.toNat then false
    else lexLt as bs

/-- The section whose filename `sorted(...)` places last — the file
`verify_book` (verify_by_next_button.py, lines 64-74) reads as "the
last page".  `none` when the book has no section files. -/
def lastFileSeq (bookId : String) : List Nat → Option Nat
  | [] => none
  | h :: t =>
    some (t.foldl
      (fun best s =>
        if lexLt (filenameChars bookId best) (filenameChars bookId s) then s
        else best) h)

/-- Numeric value of one decimal digit character. -/
def digitVal (c : Char) : Nat := c.toNat - 48

/-- Numeric value of a most-significant-first decimal digit string. -/
def strVal (l : List Char) : Nat :=
  l.foldl (fun acc c => acc * 10 + digitVal c) 0

/-- A decimal digit character: code point between `'0'` and `'9'`. -/
def IsDigitChar (c : Char) : Prop := 48 ≤ c.toNat ∧ c.toNat < 58

/-- Embedding of `verify_book` (verify_by_next_button.py, lines 47-100): the verdict
rests solely on whether the lexicographically-last section file's
content has a clickable next button. -/
def verifyBook (bookId : String) (seqs : List Nat) (hasNext : Nat → Bool) :
    String :=
  match lastFileSeq bookId seqs with
  | none => "no_html_files"
  | some s => if hasNext s then "incomplete" else "verified_complete"

end NextButton

/-- Concrete site for the C6 counterexample: sections 1, 3, 4 and 6
carry valid distinct bodies of 501 bytes; every other section is a
valid-length 404 page. -/
def resumeSiteA : Nat → Resume.Fetch := fun n =>
  if n = 1 then .page ⟨List.replicate 501 'n', false, false⟩
  else if n = 3 then .page ⟨List.replicate 501 'c', false, false⟩
  else if n = 4 then .page ⟨List.replicate 501 'd', false, false⟩
  else if n = 6 then .page ⟨List.replicate 501 'f', false, false⟩
  else .page ⟨List.replicate 501 'x', true, false⟩

/-- Concrete Unit Store for the C6 counterexample: units already exist
for sections 1, 2 and 5 (observed maximum 5). -/
def resumeStoreA : Resume.Store := [(1, ['o']), (2, ['b']), (5, ['e'])]

/-- Witness site: section 1 valid, everything else a 404 page. -/
def resumeSiteB : Nat → Resume.Fetch := fun n =>
  if n = 1 then .page ⟨List.replicate 501 'n', false, false⟩
  else .page ⟨List.replicate 501 'x', true, false⟩

/-- Witness store: one existing unit at section 2. -/
def resumeStoreB : Resume.Store := [(2, ['b'])]

/-- The result the crawler computes on the witness inputs. -/
def resumeResultB : Resume.Result :=
  ⟨"complete", [(1, List.replicate 501 'n'), (2, ['b'])], [1, 3, 4, 5, 6, 7], 2⟩

/-- Concrete one-page book for the C5 counterexample: section 5 holds
the two raw bytes `AB`. -/
def bkC5x : Archive.Book := ⟨"1", 1, "T", [(5, ['A', 'B'])]⟩

/-- Concrete one-page book for the C5 witness. -/
def bkC5w : Archive.Book := ⟨"7", 1, "T", [(3, ['x'])]⟩

/-- Concrete one-page book for the C4 witness. -/
def bkC4w : Archive.Book := ⟨"9", 1, "T", [(1, ['a'])]⟩

namespace Gaps

theorem minSec_le_self (h : Nat) (t : List Nat) : minSec h t ≤ h := by
  induction t generalizing h with
  | nil => exact Nat.le_refl h
  | cons x xs ih =>
    exact Nat.le_trans (ih (Nat.min h x)) (Nat.min_le_left h x)

theorem self_le_maxSec (h : Nat) (t : List Nat) : h ≤ maxSec h t := by
  induction t generalizing h with
  | nil => exact Nat.le_refl h
  | cons x xs ih =>
    exact Nat.le_trans (Nat.le_max_left h x) (ih (Nat.max h x))

theorem minSec_le_maxSec (h : Nat) (t : List Nat) : minSec h t ≤ maxSec h t :=
  Nat.le_trans (minSec_le_self h t) (self_le_maxSec h t)

theorem mem_findMissingSections (h : Nat) (t : List Nat) (k : Nat) :
    k ∈ findMissingSections (h :: t) ↔
      minSec h t ≤ k ∧ k ≤ maxSec h t ∧ k ∉ (h :: t) := by
  have hle := minSec_le_maxSec h t
  simp only [findMissingSections, List.mem_filter, List.mem_range',
    decide_eq_true_eq, List.contains, List.elem_eq_mem]
  constructor
  · rintro ⟨⟨i, hi, rfl⟩, hk⟩
    exact ⟨by omega, by omega, hk⟩
  · rintro ⟨h1, h2, h3⟩
    exact ⟨⟨k - minSec h t, by omega, by omega⟩, h3⟩

theorem mem_findSectionGaps (h : Nat) (t : List Nat) (k : Nat) :
    k ∈ findSectionGaps (h :: t) ↔
      1 ≤ k ∧ k ≤ maxSec h t ∧ k ∉ (h :: t) := by
  simp only [findSectionGaps, List.mem_filter, List.mem_range',
    decide_eq_true_eq, List.contains, List.elem_eq_mem]
  constructor
  · rintro ⟨⟨i, hi, rfl⟩, hk⟩
    exact ⟨by omega, by omega, hk⟩
  · rintro ⟨h1, h2, h3⟩
    exact ⟨⟨k - 1, by omega, by omega⟩, h3⟩

theorem findMissingSections_eq_specGaps (sections : Sections) :
    findMissingSections sections = specGaps sections := by
  cases sections <;> rfl

theorem findMissingSections_sorted (sections : Sections) :
    (findMissingSections sections).Sorted (· < ·) := by
  cases sections with
  | nil => simp [findMissingSections]
  | cons h t =>
    exact List.Pairwise.sublist (List.filter_sublist _)
      (List.pairwise_lt_range' _ _)

theorem findSectionGaps_sorted (sections : Sections) :
    (findSectionGaps sections).Sorted (· < ·) := by
  cases sections with
  | nil => simp [findSectionGaps]
  | cons h t =>
    exact List.Pairwise.sublist (List.filter_sublist _)
      (List.pairwise_lt_range' _ _)

end Gaps

/-- C2 (corrected, counterexample): on observed sections `{3, 5}` the
fill script's `find_section_gaps` returns `[1, 2, 4]` — it scans from
the hardcoded constant 1 — while the gap set of the claim
(`{min..max} \ sections`) is `[4]`. -/
theorem findSectionGaps_hardcodes_lower_bound_one :
    Gaps.findSectionGaps [3, 5] = [1, 2, 4] ∧
    Gaps.specGaps [3, 5] = [4] ∧
    Gaps.findSectionGaps [3, 5] ≠ Gaps.specGaps [3, 5] := by
  decide

/-- C2 (amended): `find_missing_sections` returns exactly the sorted
list of sequence numbers missing from `{observed min .. observed max}`
(it equals the spec's gap set), while `find_section_gaps` of
`fill_missing_sections.py` returns the sorted missing list of
`{1 .. observed max}`, with the constant 1 as lower bound. -/
theorem gap_detection_lower_bounds :
    (∀ sections, Gaps.findMissingSections sections = Gaps.specGaps sections) ∧
    (∀ h t k,
      (k ∈ Gaps.findMissingSections (h :: t) ↔
        Gaps.minSec h t ≤ k ∧ k ≤ Gaps.maxSec h t ∧ k ∉ (h :: t)) ∧
      (k ∈ Gaps.findSectionGaps (h :: t) ↔
        1 ≤ k ∧ k ≤ Gaps.maxSec h t ∧ k ∉ (h :: t))) ∧
    (∀ sections,
      (Gaps.findMissingSections sections).Sorted (· < ·) ∧
      (Gaps.findSectionGaps sections).Sorted (· < ·)) := by
  refine ⟨Gaps.findMissingSections_eq_specGaps, ?_, ?_⟩
  · exact fun h t k =>
      ⟨Gaps.mem_findMissingSections h t k, Gaps.mem_findSectionGaps h t k⟩
  · exact fun sections =>
      ⟨Gaps.findMissingSections_sorted sections,
        Gaps.findSectionGaps_sorted sections⟩

namespace Verify

theorem mem_missingPageNumbers (exp : Nat) (h : Nat) (t : List Nat)
    (k : Nat) :
    k ∈ missingPageNumbers exp (h :: t) ↔
      Gaps.minSec h t ≤ k ∧ k < Gaps.minSec h t + exp ∧ k ∉ (h :: t) := by
  by_cases he : 0 < exp
  · simp only [missingPageNumbers, if_pos he, List.mem_filter,
      List.mem_range', decide_eq_true_eq, List.contains, List.elem_eq_mem]
    constructor
    · rintro ⟨⟨i, hi, rfl⟩, hk⟩
      exact ⟨by omega, by omega, hk⟩
    · rintro ⟨h1, h2, h3⟩
      exact ⟨⟨k - Gaps.minSec h t, by omega, by omega⟩, h3⟩
  · simp only [missingPageNumbers, if_neg he, List.not_mem_nil, false_iff]
    omega

end Verify

/-- C3 (corrected, counterexample): a book whose ledger status is not
failed, with zero recorded errors, two stored pages `{1, 2}` and zero
gaps in the sense of the claim (`{min..max} \ pages = ∅`) is classified
`missing_pages` (Incomplete) by `verify_completeness`, not Perfect,
because its metadata `total_pages` count (0) disagrees with the actual
file count. -/
theorem verify_counts_disagreement_not_perfect :
    Verify.classify "complete" 0 [] [1, 2] = .missingPages ∧
    Verify.classify "complete" 0 [] [1, 2] ≠ .perfect ∧
    Gaps.specGaps [1, 2] = [] := by
  decide

/-- C3 (amended): `verify_completeness` buckets a `failed` ledger status
first; otherwise a book is Perfect iff its actual file count equals the
metadata `total_pages` count, nothing is missing from the range
`{observed min .. observed min + total_pages - 1}`, and it has zero
errors; Degraded (complete-with-errors) iff the same count and gap
conditions hold with at least one error; Incomplete otherwise — a count
mismatch alone suffices, and the gap range is the metadata-expected
range, not `{min..max}`. -/
theorem verifier_classification_rules :
    ∀ (status : String) (exp : Nat) (errors : List String)
      (pages : List Nat),
      (Verify.classify status exp errors pages = .failed ↔
        status = "failed") ∧
      (Verify.classify status exp errors pages = .perfect ↔
        status ≠ "failed" ∧ pages.length = exp ∧
          Verify.missingPageNumbers exp pages = [] ∧ errors = []) ∧
      (Verify.classify status exp errors pages = .completeWithErrors ↔
        status ≠ "failed" ∧ pages.length = exp ∧
          Verify.missingPageNumbers exp pages = [] ∧ errors ≠ []) ∧
      (Verify.classify status exp errors pages = .missingPages ↔
        status ≠ "failed" ∧
          ¬(pages.length = exp ∧ Verify.missingPageNumbers exp pages = [])) ∧
      (∀ h t k, k ∈ Verify.missingPageNumbers exp (h :: t) ↔
        Gaps.minSec h t ≤ k ∧ k < Gaps.minSec h t + exp ∧
          k ∉ (h :: t)) := by
  intro status exp errors pages
  refine ⟨?_, ?_, ?_, ?_, fun h t k => Verify.mem_missingPageNumbers exp h t k⟩
  all_goals
    simp only [Verify.classify]
    split_ifs <;> simp_all

/-- C1 (code bug, evaluation at the failing input): a session whose
page 1 is valid with a clickable next button pointing at page 2, and
whose page 2 fetch fails after retries, ends with the crawler writing
`status = 'complete'` — the fetch failure sits in `errors` and the
highest-sequence unit saved still carries a clickable next button, so
no termination signal was observed.  The second half of the claim does
hold: a degenerate one-unit book whose only page has no next button is
also marked complete. -/
theorem crawlBook_complete_without_termination_signal :
    Crawl.crawlBook
        (fun n => if n = 1 then some ⟨1000, some 2⟩ else none) (some 1) 10 =
      some ⟨"complete", [(1, ⟨1000, some 2⟩)], ["Failed to fetch page 2"]⟩ ∧
    ¬ Crawl.hasNextFalse ⟨1000, some 2⟩ ∧
    Crawl.crawlBook
        (fun n => if n = 1 then some ⟨1000, none⟩ else none) (some 1) 10 =
      some ⟨"complete", [(1, ⟨1000, none⟩)], []⟩ ∧
    Crawl.hasNextFalse ⟨1000, none⟩ := by
  refine ⟨by decide, by simp [Crawl.hasNextFalse], by decide, rfl⟩


/-- C7 (corrected, counterexample): with `max_consecutive_failures = 3`
and every page invalid, the crawler makes exactly 3 fetch attempts —
and then marks the book `complete` with an empty error list and returns
success; no transition to Failed and no error annotation happens. -/
theorem three_invalid_pages_marked_complete :
    SerialCrawl.crawlBook (fun _ => none) true 10 =
      some ⟨"complete", 0, [], 3, []⟩ ∧
    (SerialCrawl.crawlBook (fun _ => none) true 10).map (·.status) ≠
      some "failed" := by
  decide

/-- C7 (amended): three sequential invalid classifications do stop the
loop — no fourth content fetch is attempted in that run — but the item
is then marked `complete` with no error annotation; status `failed`
(with an annotation) is produced only when the main book page itself
cannot be fetched. -/
theorem consecutive_failure_cutoff (site : Nat → Option Nat) (fuel : Nat)
    (hfuel : 4 ≤ fuel)
    (h1 : SerialCrawl.Invalid (site 1))
    (h2 : SerialCrawl.Invalid (site 2))
    (h3 : SerialCrawl.Invalid (site 3)) :
    SerialCrawl.crawlBook site true fuel =
      some ⟨"complete", 0, [], 3, []⟩ ∧
    SerialCrawl.crawlBook site false fuel =
      some ⟨"failed", 0, [], 0, ["Failed to fetch main page"]⟩ := by
  obtain ⟨k, rfl⟩ : ∃ k, fuel = k + 4 := ⟨fuel - 4, by omega⟩
  refine ⟨?_, rfl⟩
  have step : ∀ (n m cf tp fc : Nat) (sv : List Nat),
      SerialCrawl.Invalid (site n) → cf < 3 →
      SerialCrawl.fetchLoop site 3 (m + 1) n cf tp sv fc =
        SerialCrawl.fetchLoop site 3 m (n + 1) (cf + 1) tp sv (fc + 1) := by
    intro n m cf tp fc sv hinv hcf
    simp only [SerialCrawl.fetchLoop, if_pos hcf]
    cases hs : site n with
    | none => rfl
    | some len =>
      rw [hs] at hinv
      simp only [SerialCrawl.Invalid] at hinv
      simp [if_pos hinv]
  simp only [SerialCrawl.crawlBook, if_pos rfl]
  rw [show k + 4 = (k + 3) + 1 by omega, step 1 (k + 3) 0 0 0 [] h1 (by omega),
    show k + 3 = (k + 2) + 1 by omega, step 2 (k + 2) 1 0 1 [] h2 (by omega),
    show k + 2 = (k + 1) + 1 by omega, step 3 (k + 1) 2 0 2 [] h3 (by omega)]
  simp [SerialCrawl.fetchLoop]

/-- C7 witness: the amended theorem applied to the site that answers no
page at all, with fuel 10. -/
theorem consecutive_failure_cutoff_witness :
    SerialCrawl.crawlBook (fun _ => none) true 10 =
      some ⟨"complete", 0, [], 3, []⟩ ∧
    SerialCrawl.crawlBook (fun _ => none) false 10 =
      some ⟨"failed", 0, [], 0, ["Failed to fetch main page"]⟩ :=
  consecutive_failure_cutoff (fun _ => none) 10 (by omega)
    trivial trivial trivial

/-- C8 (corrected, counterexample): the Unit Store write (`_save_html`)
and the ledger flush (`_save_progress`) do not follow the
write-temp-then-atomic-rename discipline — each is a single in-place
write of the final path. -/
theorem saves_do_not_use_temp_then_rename :
    ¬ Durable.usesTempThenRename
        (Durable.saveHtmlOps "book_1_section_1.html" "<html>")
        "book_1_section_1.html" ∧
    ¬ Durable.usesTempThenRename
        (Durable.saveProgressOps "crawl_progress.json" "{}")
        "crawl_progress.json" := by
  constructor
  · rintro ⟨tmp, c, hne, heq⟩
    simp [Durable.saveHtmlOps] at heq
  · rintro ⟨tmp, c, hne, heq⟩
    simp [Durable.saveProgressOps] at heq

/-- C8 (amended): both durable writes open the final path directly and
write the content in place — no temporary name, no rename — so a crash
mid-write can leave any truncation of the content visible under the
final name, which `exists()` then reports present. -/
theorem direct_in_place_writes :
    (∀ fp html, Durable.saveHtmlOps fp html = [.writeFile fp html] ∧
      ¬ Durable.usesTempThenRename (Durable.saveHtmlOps fp html) fp) ∧
    (∀ pf s, Durable.saveProgressOps pf s = [.writeFile pf s] ∧
      ¬ Durable.usesTempThenRename (Durable.saveProgressOps pf s) pf) ∧
    (∀ fp html n, n ≤ html.length →
      (fp, String.mk (html.toList.take n)) ∈
        (Durable.saveHtmlOps fp html).flatMap Durable.crashStates) ∧
    (∀ pf s n, n ≤ s.length →
      (pf, String.mk (s.toList.take n)) ∈
        (Durable.saveProgressOps pf s).flatMap Durable.crashStates) := by
  refine ⟨?_, ?_, ?_, ?_⟩
  · intro fp html
    refine ⟨rfl, ?_⟩
    rintro ⟨tmp, c, hne, heq⟩
    simp [Durable.saveHtmlOps] at heq
  · intro pf s
    refine ⟨rfl, ?_⟩
    rintro ⟨tmp, c, hne, heq⟩
    simp [Durable.saveProgressOps] at heq
  · intro fp html n hn
    simp only [Durable.saveHtmlOps, List.flatMap_cons, List.flatMap_nil,
      List.append_nil, Durable.crashStates, List.mem_map, List.mem_range]
    exact ⟨n, by omega, rfl⟩
  · intro pf s n hn
    simp only [Durable.saveProgressOps, List.flatMap_cons, List.flatMap_nil,
      List.append_nil, Durable.crashStates, List.mem_map, List.mem_range]
    exact ⟨n, by omega, rfl⟩

/-- C8 witness: the amended theorem at a concrete write — the empty
truncation of the HTML is a possible crash state of the final path. -/
theorem direct_in_place_writes_witness :
    (0 : Nat) ≤ "<html>body</html>".length ∧
    ("unit.html", String.mk ("<html>body</html>".toList.take 0)) ∈
      (Durable.saveHtmlOps "unit.html" "<html>body</html>").flatMap
        Durable.crashStates :=
  ⟨by omega,
    direct_in_place_writes.2.2.1 "unit.html" "<html>body</html>" 0 (by omega)⟩

namespace Ledger

theorem mem_flushesAux :
    ∀ (rs : List Outcome) (idx c f k : Nat), c + f = idx →
    (k ∈ flushesAux idx c f rs ↔
      k = idx + rs.length ∨
        (idx < k ∧ k ≤ idx + rs.length ∧
          rs.getD (k - 1 - idx) .exn ≠ .exn ∧ k % 10 = 0)) := by
  intro rs
  induction rs with
  | nil =>
    intro idx c f k h
    simp only [flushesAux, List.mem_singleton, List.length_nil, Nat.add_zero]
    constructor
    · intro hk; exact Or.inl hk
    · rintro (hk | ⟨h1, h2, _, _⟩)
      · exact hk
      · omega
  | cons o rest ih =>
    intro idx c f k h
    cases o with
    | ok =>
      have hrec := ih (idx + 1) (c + 1) f k (by omega)
      simp only [flushesAux, List.length_cons]
      rw [show c + 1 + f = idx + 1 from by omega, List.mem_append, hrec]
      by_cases h10 : (idx + 1) % 10 = 0
      · simp only [if_pos h10, List.mem_singleton]
        constructor
        · rintro (rfl | hend | ⟨h1, h2, h3, h4⟩)
          · refine Or.inr ⟨by omega, by omega, ?_, h10⟩
            rw [show idx + 1 - 1 - idx = 0 from by omega, List.getD_cons_zero]
            simp
          · exact Or.inl (by omega)
          · refine Or.inr ⟨by omega, by omega, ?_, h4⟩
            rw [show k - 1 - idx = (k - 1 - (idx + 1)) + 1 from by omega,
              List.getD_cons_succ]
            exact h3
        · rintro (hend | ⟨h1, h2, h3, h4⟩)
          · exact Or.inr (Or.inl (by omega))
          · by_cases hk1 : k = idx + 1
            · exact Or.inl hk1
            · refine Or.inr (Or.inr ⟨by omega, by omega, ?_, h4⟩)
              rw [show k - 1 - idx = (k - 1 - (idx + 1)) + 1 from by omega,
                List.getD_cons_succ] at h3
              exact h3
      · simp only [if_neg h10, List.not_mem_nil, false_or]
        constructor
        · rintro (hend | ⟨h1, h2, h3, h4⟩)
          · exact Or.inl (by omega)
          · refine Or.inr ⟨by omega, by omega, ?_, h4⟩
            rw [show k - 1 - idx = (k - 1 - (idx + 1)) + 1 from by omega,
              List.getD_cons_succ]
            exact h3
        · rintro (hend | ⟨h1, h2, h3, h4⟩)
          · exact Or.inl (by omega)
          · by_cases hk1 : k = idx + 1
            · exact absurd (hk1 ▸ h4) h10
            · refine Or.inr ⟨by omega, by omega, ?_, h4⟩
              rw [show k - 1 - idx = (k - 1 - (idx + 1)) + 1 from by omega,
                List.getD_cons_succ] at h3
              exact h3
    | err =>
      have hrec := ih (idx + 1) c (f + 1) k (by omega)
      simp only [flushesAux, List.length_cons]
      rw [show c + (f + 1) = idx + 1 from by omega, List.mem_append, hrec]
      by_cases h10 : (idx + 1) % 10 = 0
      · simp only [if_pos h10, List.mem_singleton]
        constructor
        · rintro (rfl | hend | ⟨h1, h2, h3, h4⟩)
          · refine Or.inr ⟨by omega, by omega, ?_, h10⟩
            rw [show idx + 1 - 1 - idx = 0 from by omega, List.getD_cons_zero]
            simp
          · exact Or.inl (by omega)
          · refine Or.inr ⟨by omega, by omega, ?_, h4⟩
            rw [show k - 1 - idx = (k - 1 - (idx + 1)) + 1 from by omega,
              List.getD_cons_succ]
            exact h3
        · rintro (hend | ⟨h1, h2, h3, h4⟩)
          · exact Or.inr (Or.inl (by omega))
          · by_cases hk1 : k = idx + 1
            · exact Or.inl hk1
            · refine Or.inr (Or.inr ⟨by omega, by omega, ?_, h4⟩)
              rw [show k - 1 - idx = (k - 1 - (idx + 1)) + 1 from by omega,
                List.getD_cons_succ] at h3
              exact h3
      · simp only [if_neg h10, List.not_mem_nil, false_or]
        constructor
        · rintro (hend | ⟨h1, h2, h3, h4⟩)
          · exact Or.inl (by omega)
          · refine Or.inr ⟨by omega, by omega, ?_, h4⟩
            rw [show k - 1 - idx = (k - 1 - (idx + 1)) + 1 from by omega,
              List.getD_cons_succ]
            exact h3
        · rintro (hend | ⟨h1, h2, h3, h4⟩)
          · exact Or.inl (by omega)
          · by_cases hk1 : k = idx + 1
            · exact absurd (hk1 ▸ h4) h10
            · refine Or.inr ⟨by omega, by omega, ?_, h4⟩
              rw [show k - 1 - idx = (k - 1 - (idx + 1)) + 1 from by omega,
                List.getD_cons_succ] at h3
              exact h3
    | exn =>
      have hrec := ih (idx + 1) c (f + 1) k (by omega)
      simp only [flushesAux, List.length_cons]
      rw [hrec]
      constructor
      · rintro (hend | ⟨h1, h2, h3, h4⟩)
        · exact Or.inl (by omega)
        · refine Or.inr ⟨by omega, by omega, ?_, h4⟩
          rw [show k - 1 - idx = (k - 1 - (idx + 1)) + 1 from by omega,
            List.getD_cons_succ]
          exact h3
      · rintro (hend | ⟨h1, h2, h3, h4⟩)
        · exact Or.inl (by omega)
        · by_cases hk1 : k = idx + 1
          · rw [show k - 1 - idx = 0 from by omega, List.getD_cons_zero] at h3
            simp at h3
          · refine Or.inr ⟨by omega, by omega, ?_, h4⟩
            rw [show k - 1 - idx = (k - 1 - (idx + 1)) + 1 from by omega,
              List.getD_cons_succ] at h3
            exact h3

end Ledger

/-- C9 (corrected, counterexample): in the run
`[err, ok ×11, err]` the ledger is flushed only after items 10 and 13
(`flushPoints = [10, 13]`); the tenth *completed* item is item 11, and
no flush follows it — the cadence counts failed items too — so the
claim's "flushed after every N completed items" fails at this input. -/
theorem flush_cadence_counts_failures :
    Ledger.flushPoints
        ([.err] ++ List.replicate 11 .ok ++ [.err]) = [10, 13] ∧
    ¬ Ledger.specFlushAfterEveryTenCompleted
        ([.err] ++ List.replicate 11 .ok ++ [.err]) := by
  decide

/-- C9 (amended): `crawl_books_parallel` flushes the ledger exactly
after the k-th processed item when k is a multiple of 10 and that
item's future did not raise — completed and failed items count alike,
and the exception branch updates the ledger without the periodic flush
check — plus once more when the loop exits normally.  No other flush
exists; in particular nothing is flushed on an interrupt. -/
theorem ledger_flush_points :
    ∀ (results : List Ledger.Outcome) (k : Nat),
      k ∈ Ledger.flushPoints results ↔
        k = results.length ∨
          (0 < k ∧ k ≤ results.length ∧
            results.getD (k - 1) .exn ≠ .exn ∧ k % 10 = 0) := by
  intro results k
  have h := Ledger.mem_flushesAux results 0 0 0 k rfl
  simpa [Ledger.flushPoints] using h

namespace Resume

theorem lookup_write_ne {s k : Nat} (v : List Char) (st : Store)
    (h : s ≠ k) : (write k v st).lookup s = st.lookup s := by
  simp [write, List.lookup, beq_eq_false_iff_ne.mpr h]

theorem loop_preserves (site : Nat → Fetch) (solve : Option Content)
    (s : Nat) :
    ∀ (fuel cur cf tp : Nat) (store : Store) (fetched : List Nat)
      (out : Store × List Nat × Nat),
      loop site solve fuel cur cf store fetched tp = some out →
      (store.lookup s).isSome →
      out.1.lookup s = store.lookup s ∧
        (s ∈ out.2.1 → s ∈ fetched) ∧ fetched ⊆ out.2.1 := by
  intro fuel
  induction fuel with
  | zero => intro cur cf tp store fetched out hrun; simp [loop] at hrun
  | succ n ih =>
    intro cur cf tp store fetched out hrun hs
    rw [loop.eq_2] at hrun
    by_cases hcf : cf < 5
    · rw [if_pos hcf] at hrun
      by_cases hex : ((store.lookup cur).isSome : Prop)
      · rw [if_pos hex] at hrun
        exact ih (cur + 1) cf (tp + 1) store fetched out hrun hs
      · rw [if_neg hex] at hrun
        have hne : s ≠ cur := by
          intro h; subst h; exact hex (by simpa using hs)
        cases hsite : site cur with
        | timeout =>
          rw [hsite] at hrun
          dsimp only at hrun
          obtain ⟨h1, h2, h3⟩ :=
            ih (cur + 1) (cf + 1) tp store (fetched ++ [cur]) out hrun hs
          refine ⟨h1, ?_, fun x hx => h3 (List.mem_append_left _ hx)⟩
          intro hmem
          rcases List.mem_append.mp (h2 hmem) with h | h
          · exact h
          · exact absurd (List.mem_singleton.mp h) hne
        | page c =>
          rw [hsite] at hrun
          dsimp only at hrun
          by_cases hlen : c.bytes.length < 500
          · rw [if_pos hlen] at hrun
            obtain ⟨h1, h2, h3⟩ :=
              ih (cur + 1) (cf + 1) tp store (fetched ++ [cur]) out hrun hs
            refine ⟨h1, ?_, fun x hx => h3 (List.mem_append_left _ hx)⟩
            intro hmem
            rcases List.mem_append.mp (h2 hmem) with h | h
            · exact h
            · exact absurd (List.mem_singleton.mp h) hne
          · rw [if_neg hlen] at hrun
            by_cases hnf : c.notFound = true
            · rw [if_pos hnf] at hrun
              obtain ⟨h1, h2, h3⟩ :=
                ih (cur + 1) (cf + 1) tp store (fetched ++ [cur]) out hrun hs
              refine ⟨h1, ?_, fun x hx => h3 (List.mem_append_left _ hx)⟩
              intro hmem
              rcases List.mem_append.mp (h2 hmem) with h | h
              · exact h
              · exact absurd (List.mem_singleton.mp h) hne
            · rw [if_neg hnf] at hrun
              by_cases hch : c.challenge = true
              · rw [if_pos hch] at hrun
                cases hsv : solve with
                | none =>
                  rw [hsv] at hrun
                  simp only [Option.elim] at hrun
                  injection hrun with hout
                  subst hout
                  refine ⟨rfl, ?_, fun x hx => List.mem_append_left _ hx⟩
                  intro hmem
                  rcases List.mem_append.mp hmem with h | h
                  · exact h
                  · exact absurd (List.mem_singleton.mp h) hne
                | some c' =>
                  rw [hsv] at hrun
                  simp only [Option.elim] at hrun
                  rw [← hsv] at hrun
                  have hs' : ((write cur c'.bytes store).lookup s).isSome := by
                    rw [lookup_write_ne _ _ hne]; exact hs
                  obtain ⟨h1, h2, h3⟩ :=
                    ih (cur + 1) 0 (tp + 1) (write cur c'.bytes store)
                      (fetched ++ [cur]) out hrun hs'
                  rw [lookup_write_ne _ _ hne] at h1
                  refine ⟨h1, ?_, fun x hx => h3 (List.mem_append_left _ hx)⟩
                  intro hmem
                  rcases List.mem_append.mp (h2 hmem) with h | h
                  · exact h
                  · exact absurd (List.mem_singleton.mp h) hne
              · rw [if_neg hch] at hrun
                have hs' : ((write cur c.bytes store).lookup s).isSome := by
                  rw [lookup_write_ne _ _ hne]; exact hs
                obtain ⟨h1, h2, h3⟩ :=
                  ih (cur + 1) 0 (tp + 1) (write cur c.bytes store)
                    (fetched ++ [cur]) out hrun hs'
                rw [lookup_write_ne _ _ hne] at h1
                refine ⟨h1, ?_, fun x hx => h3 (List.mem_append_left _ hx)⟩
                intro hmem
                rcases List.mem_append.mp (h2 hmem) with h | h
                · exact h
                · exact absurd (List.mem_singleton.mp h) hne
    · rw [if_neg hcf] at hrun
      injection hrun with hout
      subst hout
      exact ⟨rfl, fun h => h, fun x hx => hx⟩

end Resume

set_option maxRecDepth 40000 in
/-- C6 (corrected, counterexample): resuming the camoufox crawl of a
book whose Unit Store already holds sections `{1, 2, 5}` navigates to
section 1 first — an already-fetched unit is fetched again — and
overwrites its stored bytes with the newly fetched content; the crawl
then proceeds from section 3 (the lowest missing sequence ≥ 2), not
from `max(existing) + 1 = 6`. -/
theorem camoufox_refetches_section_one :
    (Resume.crawlBook resumeSiteA none false resumeStoreA 40).map
        (·.fetched) = some [1, 3, 4, 6, 7, 8, 9, 10, 11] ∧
    (resumeStoreA.lookup 1).isSome ∧
    (Resume.crawlBook resumeSiteA none false resumeStoreA 40).map
        (fun r => r.store.lookup 1) =
      some (some (List.replicate 501 'n')) ∧
    some (List.replicate 501 'n') ≠ resumeStoreA.lookup 1 ∧
    Gaps.maxSec 1 [2, 5] + 1 = 6 ∧
    (Resume.crawlBook resumeSiteA none false resumeStoreA 40).map
        (fun r => r.fetched.head?) = some (some 1) := by
  refine ⟨by decide, by decide, by decide, by decide, by decide, by decide⟩

/-- C6 (amended): on any resume run of the camoufox crawler, section 1
is always navigated to again (and rewritten when valid), while every
existing unit with sequence ≥ 2 is never fetched again and its stored
bytes are unchanged; fetching therefore restarts at the lowest missing
sequence ≥ 2 rather than at `max(existing) + 1`. -/
theorem camoufox_resume_behavior (site : Nat → Resume.Fetch)
    (solve : Option Resume.Content) (store₀ : Resume.Store) (fuel : Nat)
    (r : Resume.Result)
    (hrun : Resume.crawlBook site solve false store₀ fuel = some r) :
    1 ∈ r.fetched ∧
    ∀ s, s ≠ 1 → (store₀.lookup s).isSome →
      s ∉ r.fetched ∧ r.store.lookup s = store₀.lookup s := by
  simp only [Resume.crawlBook, Bool.false_eq_true, if_false] at hrun
  cases hs1 : site 1 with
  | timeout =>
    rw [hs1] at hrun
    dsimp only at hrun
    injection hrun with hr
    subst hr
    refine ⟨List.mem_singleton.mpr rfl, ?_⟩
    intro s hs _
    exact ⟨fun h => hs (List.mem_singleton.mp h), rfl⟩
  | page c =>
    rw [hs1] at hrun
    dsimp only at hrun
    cases hcc : (if c.challenge then solve else some c) with
    | none =>
      rw [hcc] at hrun
      dsimp only at hrun
      injection hrun with hr
      subst hr
      refine ⟨List.mem_singleton.mpr rfl, ?_⟩
      intro s hs _
      exact ⟨fun h => hs (List.mem_singleton.mp h), rfl⟩
    | some cc =>
      rw [hcc] at hrun
      dsimp only at hrun
      by_cases hval : 500 < cc.bytes.length ∧ cc.notFound = false
      · rw [if_pos hval] at hrun
        obtain ⟨out, hloop, hr⟩ := Option.map_eq_some'.mp hrun
        subst hr
        constructor
        · have h1 := Resume.loop_preserves site solve 1 fuel 2 0 1
            (Resume.write 1 cc.bytes store₀) [1] out hloop
            (by simp [Resume.write, List.lookup])
          exact h1.2.2 (List.mem_singleton.mpr rfl)
        · intro s hs hsome
          have hsome' : ((Resume.write 1 cc.bytes store₀).lookup s).isSome := by
            rw [Resume.lookup_write_ne _ _ hs]; exact hsome
          have h1 := Resume.loop_preserves site solve s fuel 2 0 1
            (Resume.write 1 cc.bytes store₀) [1] out hloop hsome'
          refine ⟨?_, ?_⟩
          · intro hmem
            exact hs (List.mem_singleton.mp (h1.2.1 hmem))
          · rw [h1.1, Resume.lookup_write_ne _ _ hs]
      · rw [if_neg hval] at hrun
        injection hrun with hr
        subst hr
        refine ⟨List.mem_singleton.mpr rfl, ?_⟩
        intro s hs _
        exact ⟨fun h => hs (List.mem_singleton.mp h), rfl⟩

set_option maxRecDepth 40000 in
/-- C6 witness: the amended theorem applied to a concrete resume run
with one existing unit at section 2. -/
theorem camoufox_resume_behavior_witness :
    1 ∈ resumeResultB.fetched ∧
    (2 ∉ resumeResultB.fetched ∧
      resumeResultB.store.lookup 2 = resumeStoreB.lookup 2) := by
  have h := camoufox_resume_behavior resumeSiteB none resumeStoreB 20
    resumeResultB (by decide)
  exact ⟨h.1, (h.2 2 (by decide) (by decide)).1, (h.2 2 (by decide) (by decide)).2⟩

namespace Archive

theorem headerBytes_ne_nil (url timestamp : String) (n : Nat) :
    headerBytes url timestamp n ≠ [] := by
  intro hc
  exact absurd (List.append_eq_nil.mp hc).2 (by decide)

theorem recordBytes_ne_nil (url timestamp : String) (payload : List Char) :
    recordBytes url timestamp payload ≠ [] := by
  simp only [recordBytes]
  exact fun h => headerBytes_ne_nil url timestamp payload.length
    (List.append_eq_nil.mp h).1

theorem lookup_append {α : Type} (l₁ l₂ : List (Nat × α)) (k : Nat) :
    (l₁ ++ l₂).lookup k =
      match l₁.lookup k with
      | some v => some v
      | none => l₂.lookup k := by
  induction l₁ with
  | nil => simp [List.lookup]
  | cons hd tl ih =>
    obtain ⟨a, b⟩ := hd
    simp only [List.cons_append, List.lookup_cons]
    cases h : k == a
    · simpa using ih
    · rfl

theorem lookup_eq_none_of {α : Type} (l : List (Nat × α)) (k : Nat)
    (h : ∀ x ∈ l, x.1 ≠ k) : l.lookup k = none := by
  induction l with
  | nil => rfl
  | cons hd tl ih =>
    obtain ⟨a, b⟩ := hd
    simp only [List.lookup_cons]
    have ha : a ≠ k := h (a, b) (List.mem_cons_self _ _)
    have hk : (k == a) = false := beq_eq_false_iff_ne.mpr fun he => ha he.symm
    rw [hk]
    exact ih fun x hx => h x (List.mem_cons_of_mem _ hx)

theorem mono_refl (s : ConvState) : Mono s s :=
  fun m stream h => ⟨[], by simpa using h⟩

theorem mono_trans {s₁ s₂ s₃ : ConvState} (h₁ : Mono s₁ s₂)
    (h₂ : Mono s₂ s₃) : Mono s₁ s₃ := by
  intro m stream h
  obtain ⟨e₁, he₁⟩ := h₁ m stream h
  obtain ⟨e₂, he₂⟩ := h₂ m _ he₁
  exact ⟨e₁ ++ e₂, by rw [he₂, List.append_assoc]⟩

theorem containerStream_writeRecord (s : ConvState) (u t : String)
    (p : List Char) (n : Nat) (stream : List Char)
    (hcur : s.current = some (n, stream))
    (hfresh : ∀ x ∈ s.closed, x.1 ≠ n) (m : Nat) :
    containerStream (writeRecord u t p s) m =
      if n = m then some (stream ++ recordBytes u t p)
      else containerStream s m := by
  simp only [writeRecord, hcur, containerStream]
  by_cases hnm : n = m
  · subst hnm
    rw [lookup_eq_none_of _ _ hfresh]
    simp
  · cases hl : s.closed.lookup m with
    | some bytes => simp [hnm]
    | none => simp [hnm]

theorem good_writeRecord (s : ConvState) (u t : String) (p : List Char)
    (hg : Good s) : Good (writeRecord u t p s) := by
  obtain ⟨h1, h2⟩ := hg
  cases hcur : s.current with
  | none => simpa [writeRecord, hcur] using ⟨h1, h2⟩
  | some nb =>
    obtain ⟨n, stream⟩ := nb
    obtain ⟨hn1, hn2⟩ := h2 (n, stream) hcur
    refine ⟨?_, ?_⟩
    · simpa [writeRecord, hcur] using h1
    · intro nb' hnb'
      simp only [writeRecord, hcur, Option.some.injEq] at hnb'
      subst hnb'
      exact ⟨by simpa [writeRecord, hcur] using hn1,
        by simpa [writeRecord, hcur] using hn2⟩

theorem mono_writeRecord (s : ConvState) (u t : String) (p : List Char)
    (hg : Good s) : Mono s (writeRecord u t p s) := by
  intro m stream h
  cases hcur : s.current with
  | none => exact ⟨[], by simpa [writeRecord, hcur] using h⟩
  | some nb =>
    obtain ⟨n, st0⟩ := nb
    have hfresh : ∀ x ∈ s.closed, x.1 ≠ n := (hg.2 (n, st0) hcur).2
    rw [containerStream_writeRecord s u t p n st0 hcur hfresh m]
    by_cases hnm : n = m
    · subst hnm
      have : containerStream s n = some st0 := by
        simp [containerStream, lookup_eq_none_of _ _ hfresh, hcur]
      rw [this] at h
      injection h with h
      subst h
      exact ⟨recordBytes u t p, by rw [if_pos rfl]⟩
    · exact ⟨[], by rw [if_neg hnm, h, List.append_nil]⟩

theorem good_openNew (s : ConvState) (hg : Good s) : Good (openNew s) := by
  obtain ⟨h1, h2⟩ := hg
  refine ⟨?_, ?_⟩
  · intro x hx
    simp only [openNew] at hx
    rcases List.mem_append.mp hx with h | h
    · exact Nat.lt_succ_of_lt (h1 x h)
    · cases hcur : s.current with
      | none => rw [hcur] at h; simp at h
      | some nc =>
        rw [hcur] at h
        simp only [Option.toList_some, List.mem_singleton] at h
        subst h
        exact Nat.lt_succ_of_lt (h2 x hcur).1
  · intro nb hnb
    simp only [openNew, Option.some.injEq] at hnb
    subst hnb
    refine ⟨Nat.lt_succ_self _, ?_⟩
    intro x hx
    simp only [openNew] at hx
    rcases List.mem_append.mp hx with h | h
    · exact Nat.ne_of_lt (h1 x h)
    · cases hcur : s.current with
      | none => rw [hcur] at h; simp at h
      | some nc =>
        rw [hcur] at h
        simp only [Option.toList_some, List.mem_singleton] at h
        subst h
        exact Nat.ne_of_lt (h2 x hcur).1

theorem containerStream_openNew (s : ConvState) (m : Nat)
    (stream : List Char) (h : containerStream s m = some stream) :
    containerStream (openNew s) m = some stream := by
  simp only [containerStream] at h ⊢
  simp only [openNew]
  cases hl : s.closed.lookup m with
  | some bytes =>
    rw [hl] at h
    injection h with h
    subst h
    rw [lookup_append]
    simp [hl]
  | none =>
    rw [hl] at h
    cases hcur : s.current with
    | none => rw [hcur] at h; simp at h
    | some nb =>
      obtain ⟨n, bytes⟩ := nb
      rw [hcur] at h
      simp only at h
      by_cases hnm : n = m
      · subst hnm
        rw [if_pos rfl] at h
        injection h with h
        subst h
        rw [lookup_append, hl]
        simp [hcur, List.lookup_cons]
      · rw [if_neg hnm] at h
        simp at h

theorem mono_openNew (s : ConvState) : Mono s (openNew s) :=
  fun m stream h =>
    ⟨[], by rw [List.append_nil]; exact containerStream_openNew s m stream h⟩

theorem containerStream_closeFinal (s : ConvState) (m : Nat)
    (stream : List Char) (h : containerStream s m = some stream) :
    containerStream (closeFinal s) m = some stream := by
  simp only [containerStream] at h ⊢
  simp only [closeFinal]
  cases hl : s.closed.lookup m with
  | some bytes =>
    rw [hl] at h
    injection h with h
    subst h
    rw [lookup_append]
    simp [hl]
  | none =>
    rw [hl] at h
    cases hcur : s.current with
    | none => rw [hcur] at h; simp at h
    | some nb =>
      obtain ⟨n, bytes⟩ := nb
      rw [hcur] at h
      simp only at h
      by_cases hnm : n = m
      · subst hnm
        rw [if_pos rfl] at h
        injection h with h
        subst h
        rw [lookup_append, hl]
        simp [hcur, List.lookup_cons]
      · rw [if_neg hnm] at h
        simp at h

theorem mono_closeFinal (s : ConvState) : Mono s (closeFinal s) :=
  fun m stream h =>
    ⟨[], by
      rw [List.append_nil]
      exact containerStream_closeFinal s m stream h⟩

theorem recAt_mono {s s' : ConvState} (hm : Mono s s') (e : CdxEntry)
    (u t : String) (p : List Char) (h : recAt s e u t p) :
    recAt s' e u t p := by
  obtain ⟨stream, hcs, hpre⟩ := h
  obtain ⟨ext, hcs'⟩ := hm e.warcFile stream hcs
  refine ⟨stream ++ ext, hcs', ?_⟩
  rw [List.drop_append_eq_append_drop]
  exact hpre.trans (List.prefix_append _ _)

theorem inv_mono {s s' : ConvState}
    {written : List (String × String × List Char)} (hm : Mono s s')
    (hcdx : s'.cdx = s.cdx) (hinv : Inv s written) : Inv s' written := by
  rw [Inv, hcdx]
  exact hinv.imp fun e w ⟨h1, h2, h3⟩ => ⟨h1, h2, recAt_mono hm e _ _ _ h3⟩

theorem writeRecord_step (s : ConvState)
    (written : List (String × String × List Char)) (u t : String)
    (p : List Char) (n : Nat) (stream : List Char) (hg : Good s)
    (hcur : s.current = some (n, stream)) (hinv : Inv s written) :
    Good (writeRecord u t p s) ∧
    (writeRecord u t p s).current = some (n, stream ++ recordBytes u t p) ∧
    (writeRecord u t p s).closed = s.closed ∧
    (writeRecord u t p s).nextCounter = s.nextCounter ∧
    (writeRecord u t p s).cdx =
      s.cdx ++ [⟨u, n, stream.length, p.length⟩] ∧
    Inv (writeRecord u t p s) (written ++ [(u, t, p)]) := by
  have hfresh : ∀ x ∈ s.closed, x.1 ≠ n := (hg.2 (n, stream) hcur).2
  refine ⟨good_writeRecord s u t p hg, by simp [writeRecord, hcur],
    by simp [writeRecord, hcur], by simp [writeRecord, hcur],
    by simp [writeRecord, hcur], ?_⟩
  have hmono := mono_writeRecord s u t p hg
  have hcdx : (writeRecord u t p s).cdx =
      s.cdx ++ [⟨u, n, stream.length, p.length⟩] := by
    simp [writeRecord, hcur]
  rw [Inv, hcdx]
  refine List.rel_append
    (hinv.imp fun e w ⟨h1, h2, h3⟩ => ⟨h1, h2, recAt_mono hmono e _ _ _ h3⟩)
    ?_
  refine List.Forall₂.cons ⟨rfl, rfl, ?_⟩ List.Forall₂.nil
  refine ⟨stream ++ recordBytes u t p, ?_, ?_⟩
  · rw [containerStream_writeRecord s u t p n stream hcur hfresh n,
      if_pos rfl]
  · rw [List.drop_left]

end Archive

namespace Archive

theorem fold_book :
    ∀ (pages : List (Nat × List Char)) (bookId ts : String)
      (s : ConvState) (written : List (String × String × List Char))
      (n : Nat) (stream : List Char),
      Good s → s.current = some (n, stream) → Inv s written →
      Good (pages.foldl
        (fun acc p => writeRecord (pageUrl bookId p.1) ts p.2 acc) s) ∧
      (∃ ext, (pages.foldl
          (fun acc p => writeRecord (pageUrl bookId p.1) ts p.2 acc)
            s).current = some (n, stream ++ ext) ∧
        (pages ≠ [] → ext ≠ [])) ∧
      (pages.foldl
        (fun acc p => writeRecord (pageUrl bookId p.1) ts p.2 acc)
          s).closed = s.closed ∧
      (pages.foldl
        (fun acc p => writeRecord (pageUrl bookId p.1) ts p.2 acc)
          s).nextCounter = s.nextCounter ∧
      (∃ es, (pages.foldl
          (fun acc p => writeRecord (pageUrl bookId p.1) ts p.2 acc)
            s).cdx = s.cdx ++ es ∧ es.length = pages.length ∧
        ∀ e ∈ es, e.warcFile = n) ∧
      Inv (pages.foldl
        (fun acc p => writeRecord (pageUrl bookId p.1) ts p.2 acc) s)
        (written ++ pages.map fun p => (pageUrl bookId p.1, ts, p.2)) := by
  intro pages
  induction pages with
  | nil =>
    intro bookId ts s written n stream hg hcur hinv
    refine ⟨hg, ⟨[], by rw [List.append_nil]; exact hcur, by simp⟩,
      rfl, rfl, ⟨[], by simp, rfl, by simp⟩, by simpa using hinv⟩
  | cons hd rest ih =>
    intro bookId ts s written n stream hg hcur hinv
    obtain ⟨sec, content⟩ := hd
    obtain ⟨hg', hcur', hclosed', hctr', hcdx', hinv'⟩ :=
      writeRecord_step s written (pageUrl bookId sec) ts content n stream
        hg hcur hinv
    set s' := writeRecord (pageUrl bookId sec) ts content s with hs'
    obtain ⟨ihg, ⟨ext', hext', _⟩, ihclosed, ihctr, ⟨es', hes', heslen, hesfile⟩,
      ihinv⟩ :=
      ih bookId ts s' (written ++ [(pageUrl bookId sec, ts, content)]) n
        (stream ++ recordBytes (pageUrl bookId sec) ts content) hg' hcur' hinv'
    simp only [List.foldl_cons]
    refine ⟨ihg, ?_, ?_, ?_, ?_, ?_⟩
    · refine ⟨recordBytes (pageUrl bookId sec) ts content ++ ext', ?_, ?_⟩
      · rw [← List.append_assoc]
        exact hext'
      · intro _
        intro hc
        exact recordBytes_ne_nil (pageUrl bookId sec) ts content
          (List.append_eq_nil.mp hc).1
    · rw [ihclosed, hclosed']
    · rw [ihctr, hctr']
    · refine ⟨⟨pageUrl bookId sec, n, stream.length, content.length⟩ :: es',
        ?_, by simp [heslen], ?_⟩
      · rw [hes', hcdx', List.append_assoc]
        rfl
      · intro e he
        rcases List.mem_cons.mp he with h | h
        · rw [h]
        · exact hesfile e h
    · have : written ++
          ((sec, content) :: rest).map
            (fun p => (pageUrl bookId p.1, ts, p.2)) =
          (written ++ [(pageUrl bookId sec, ts, content)]) ++
            rest.map (fun p => (pageUrl bookId p.1, ts, p.2)) := by
        simp
      rw [this]
      exact ihinv

theorem fold_cdx :
    ∀ (pages : List (Nat × List Char)) (bookId ts : String)
      (s : ConvState) (n : Nat) (stream : List Char),
      s.current = some (n, stream) →
      (∃ ext, (pages.foldl
          (fun acc p => writeRecord (pageUrl bookId p.1) ts p.2 acc)
            s).current = some (n, stream ++ ext) ∧
        (pages ≠ [] → ext ≠ [])) ∧
      (pages.foldl
        (fun acc p => writeRecord (pageUrl bookId p.1) ts p.2 acc)
          s).closed = s.closed ∧
      (pages.foldl
        (fun acc p => writeRecord (pageUrl bookId p.1) ts p.2 acc)
          s).nextCounter = s.nextCounter ∧
      ∃ es, (pages.foldl
          (fun acc p => writeRecord (pageUrl bookId p.1) ts p.2 acc)
            s).cdx = s.cdx ++ es ∧ es.length = pages.length ∧
        ∀ e ∈ es, e.warcFile = n := by
  intro pages
  induction pages with
  | nil =>
    intro bookId ts s n stream hcur
    exact ⟨⟨[], by rw [List.append_nil]; exact hcur, by simp⟩,
      rfl, rfl, ⟨[], by simp, rfl, by simp⟩⟩
  | cons hd rest ih =>
    intro bookId ts s n stream hcur
    obtain ⟨sec, content⟩ := hd
    have hcur' : (writeRecord (pageUrl bookId sec) ts content s).current =
        some (n, stream ++ recordBytes (pageUrl bookId sec) ts content) := by
      simp [writeRecord, hcur]
    have hclosed' :
        (writeRecord (pageUrl bookId sec) ts content s).closed = s.closed := by
      simp [writeRecord, hcur]
    have hctr' : (writeRecord (pageUrl bookId sec) ts content s).nextCounter =
        s.nextCounter := by
      simp [writeRecord, hcur]
    have hcdx' : (writeRecord (pageUrl bookId sec) ts content s).cdx =
        s.cdx ++ [⟨pageUrl bookId sec, n, stream.length, content.length⟩] := by
      simp [writeRecord, hcur]
    obtain ⟨⟨ext', hext', _⟩, ihclosed, ihctr, ⟨es', hes', heslen, hesfile⟩⟩ :=
      ih bookId ts (writeRecord (pageUrl bookId sec) ts content s) n
        (stream ++ recordBytes (pageUrl bookId sec) ts content) hcur'
    simp only [List.foldl_cons]
    refine ⟨?_, ?_, ?_, ?_⟩
    · refine ⟨recordBytes (pageUrl bookId sec) ts content ++ ext', ?_, ?_⟩
      · rw [← List.append_assoc]
        exact hext'
      · intro _ hc
        exact recordBytes_ne_nil (pageUrl bookId sec) ts content
          (List.append_eq_nil.mp hc).1
    · rw [ihclosed, hclosed']
    · rw [ihctr, hctr']
    · refine ⟨⟨pageUrl bookId sec, n, stream.length, content.length⟩ :: es',
        ?_, by simp [heslen], ?_⟩
      · rw [hes', hcdx', List.append_assoc]
        rfl
      · intro e he
        rcases List.mem_cons.mp he with h | h
        · rw [h]
        · exact hesfile e h

end Archive

namespace Archive

theorem convertBook_c4 (maxSize : Nat) (b : Book) (s : ConvState)
    (hne : b.pages ≠ []) (hexp : b.pages.length = b.expectedPages) :
    (convertBook maxSize b s).1 = true ∧
    (convertBook maxSize b s).2.closed.length =
      s.closed.length +
        (if s.current.isSome ∧ s.currentSize + bookSize b > maxSize
          then 1 else 0) ∧
    ∃ num es, (convertBook maxSize b s).2.cdx = s.cdx ++ es ∧
      es.length = b.pages.length ∧ ∀ e ∈ es, e.warcFile = num := by
  simp only [convertBook, if_neg hne, if_neg (not_ne_iff.mpr hexp)]
  cases hcur : s.current with
  | none =>
    simp only [hcur]
    have hcur1 : (openNew s).current = some (s.nextCounter, []) := rfl
    obtain ⟨_, hclosed, _, ⟨es, hes, heslen, hesfile⟩⟩ :=
      fold_cdx b.pages b.bookId b.timestamp (openNew s) s.nextCounter []
        hcur1
    refine ⟨trivial, ?_, ⟨s.nextCounter, es, ?_, heslen, hesfile⟩⟩
    · rw [hclosed]
      simp [openNew, hcur]
    · rw [hes]
      simp [openNew]
  | some nb =>
    simp only [hcur]
    by_cases hrot : s.currentSize + bookSize b > maxSize
    · rw [if_pos hrot]
      have hcur1 : (openNew s).current = some (s.nextCounter, []) := rfl
      obtain ⟨_, hclosed, _, ⟨es, hes, heslen, hesfile⟩⟩ :=
        fold_cdx b.pages b.bookId b.timestamp (openNew s) s.nextCounter []
          hcur1
      refine ⟨trivial, ?_, ⟨s.nextCounter, es, ?_, heslen, hesfile⟩⟩
      · rw [hclosed]
        simp [openNew, hcur, hrot]
      · rw [hes]
        simp [openNew]
    · rw [if_neg hrot]
      obtain ⟨nn, stream⟩ := nb
      obtain ⟨_, hclosed, _, ⟨es, hes, heslen, hesfile⟩⟩ :=
        fold_cdx b.pages b.bookId b.timestamp s nn stream hcur
      refine ⟨trivial, ?_, ⟨nn, es, hes, heslen, hesfile⟩⟩
      rw [hclosed]
      simp [hcur, hrot]

theorem convertBook_wf (maxSize : Nat) (b : Book) (s : ConvState)
    (hwf : WF s) : WF (convertBook maxSize b s).2 := by
  by_cases h1 : b.pages = []
  · simpa [convertBook, h1] using hwf
  · by_cases h2 : b.pages.length = b.expectedPages
    · simp only [convertBook, if_neg h1, if_neg (not_ne_iff.mpr h2)]
      cases hcur : s.current with
      | none =>
        simp only [hcur]
        obtain ⟨⟨ext, hext, hextne⟩, hclosed, _, _⟩ :=
          fold_cdx b.pages b.bookId b.timestamp (openNew s) s.nextCounter []
            rfl
        refine ⟨?_, ?_⟩
        · intro c hc
          rw [hclosed] at hc
          simp only [openNew, hcur, Option.toList_none, List.append_nil]
            at hc
          exact hwf.1 c hc
        · intro nb hnb
          rw [hext] at hnb
          injection hnb with hnb
          subst hnb
          simpa using hextne h1
      | some nb =>
        simp only [hcur]
        by_cases hrot : s.currentSize + bookSize b > maxSize
        · rw [if_pos hrot]
          obtain ⟨⟨ext, hext, hextne⟩, hclosed, _, _⟩ :=
            fold_cdx b.pages b.bookId b.timestamp (openNew s) s.nextCounter
              [] rfl
          refine ⟨?_, ?_⟩
          · intro c hc
            rw [hclosed] at hc
            simp only [openNew, hcur, Option.toList_some] at hc
            rcases List.mem_append.mp hc with h | h
            · exact hwf.1 c h
            · rw [List.mem_singleton.mp h]
              exact hwf.2 nb hcur
          · intro nc hnc
            rw [hext] at hnc
            injection hnc with hnc
            subst hnc
            simpa using hextne h1
        · rw [if_neg hrot]
          obtain ⟨nn, stream⟩ := nb
          obtain ⟨⟨ext, hext, hextne⟩, hclosed, _, _⟩ :=
            fold_cdx b.pages b.bookId b.timestamp s nn stream hcur
          refine ⟨?_, ?_⟩
          · intro c hc
            rw [hclosed] at hc
            exact hwf.1 c hc
          · intro nc hnc
            rw [hext] at hnc
            injection hnc with hnc
            subst hnc
            intro hcon
            exact hextne h1 (List.append_eq_nil.mp hcon).2
    · simpa [convertBook, if_neg h1, if_pos h2] using hwf

theorem convertBook_step (maxSize : Nat) (b : Book) (s : ConvState)
    (written : List (String × String × List Char)) (hg : Good s)
    (hinv : Inv s written) (hne : b.pages ≠ [])
    (hexp : b.pages.length = b.expectedPages) :
    Good (convertBook maxSize b s).2 ∧
    Inv (convertBook maxSize b s).2
      (written ++ b.pages.map
        fun p => (pageUrl b.bookId p.1, b.timestamp, p.2)) := by
  simp only [convertBook, if_neg hne, if_neg (not_ne_iff.mpr hexp)]
  cases hcur : s.current with
  | none =>
    simp only [hcur]
    have hg1 := good_openNew s hg
    have hinv1 : Inv (openNew s) written :=
      inv_mono (mono_openNew s) rfl hinv
    obtain ⟨hgood, _, _, _, _, hinvf⟩ :=
      fold_book b.pages b.bookId b.timestamp (openNew s) written
        s.nextCounter [] hg1 rfl hinv1
    exact ⟨hgood, hinvf⟩
  | some nb =>
    simp only [hcur]
    by_cases hrot : s.currentSize + bookSize b > maxSize
    · rw [if_pos hrot]
      have hg1 := good_openNew s hg
      have hinv1 : Inv (openNew s) written :=
        inv_mono (mono_openNew s) rfl hinv
      obtain ⟨hgood, _, _, _, _, hinvf⟩ :=
        fold_book b.pages b.bookId b.timestamp (openNew s) written
          s.nextCounter [] hg1 rfl hinv1
      exact ⟨hgood, hinvf⟩
    · rw [if_neg hrot]
      obtain ⟨nn, stream⟩ := nb
      obtain ⟨hgood, _, _, _, _, hinvf⟩ :=
        fold_book b.pages b.bookId b.timestamp s written nn stream hg hcur
          hinv
      exact ⟨hgood, hinvf⟩

end Archive

namespace Archive

theorem convertList_wf (maxSize : Nat) :
    ∀ (books : List Book) (s : ConvState), WF s →
      WF (convertList maxSize books s) := by
  intro books
  induction books with
  | nil => intro s hwf; exact hwf
  | cons b bs ih =>
    intro s hwf
    have hwf' := convertBook_wf maxSize b s hwf
    simp only [convertList]
    cases hc : convertBook maxSize b s with
    | mk ok s' =>
      rw [hc] at hwf'
      cases ok with
      | true => exact ih s' hwf'
      | false => exact hwf'

theorem convertList_inv (maxSize : Nat) :
    ∀ (books : List Book) (s : ConvState)
      (written : List (String × String × List Char)),
      Good s → Inv s written →
      (∀ b ∈ books, b.pages ≠ [] ∧ b.pages.length = b.expectedPages) →
      Good (convertList maxSize books s) ∧
      Inv (convertList maxSize books s) (written ++ allRecords books) := by
  intro books
  induction books with
  | nil =>
    intro s written hg hinv _
    simpa [allRecords] using ⟨hg, hinv⟩
  | cons b bs ih =>
    intro s written hg hinv hwfb
    have hb := hwfb b (List.mem_cons_self _ _)
    have hok := (convertBook_c4 maxSize b s hb.1 hb.2).1
    have hstep := convertBook_step maxSize b s written hg hinv hb.1 hb.2
    simp only [convertList]
    cases hc : convertBook maxSize b s with
    | mk ok s' =>
      rw [hc] at hok hstep
      cases ok with
      | false => simp at hok
      | true =>
        have hrec := ih s'
          (written ++ b.pages.map
            fun p => (pageUrl b.bookId p.1, b.timestamp, p.2))
          hstep.1 hstep.2 (fun c hc => hwfb c (List.mem_cons_of_mem _ hc))
        refine ⟨hrec.1, ?_⟩
        have : written ++ allRecords (b :: bs) =
            (written ++ b.pages.map
              fun p => (pageUrl b.bookId p.1, b.timestamp, p.2)) ++
              allRecords bs := by
          simp [allRecords]
        rw [this]
        exact hrec.2

theorem good_init : Good initState := by
  constructor
  · intro x hx; simp [initState] at hx
  · intro nb hnb; simp [initState] at hnb

theorem inv_init : Inv initState [] := List.Forall₂.nil

theorem runConv_inv (maxSize : Nat) (books : List Book)
    (hwfb : ∀ b ∈ books, b.pages ≠ [] ∧ b.pages.length = b.expectedPages) :
    Inv (runConv maxSize books) (allRecords books) := by
  obtain ⟨hg, hinv⟩ :=
    convertList_inv maxSize books initState [] good_init inv_init hwfb
  have : Inv (convertList maxSize books initState) (allRecords books) := by
    simpa using hinv
  exact inv_mono (mono_closeFinal _) rfl this

theorem runConv_wf (maxSize : Nat) (books : List Book) :
    ∀ c ∈ (runConv maxSize books).closed, c.2 ≠ [] := by
  have hwf : WF (convertList maxSize books initState) :=
    convertList_wf maxSize books initState
      ⟨fun c hc => by simp [initState] at hc,
        fun nb hnb => by simp [initState] at hnb⟩
  intro c hc
  simp only [runConv, closeFinal] at hc
  rcases List.mem_append.mp hc with h | h
  · exact hwf.1 c h
  · cases hcur : (convertList maxSize books initState).current with
    | none => rw [hcur] at h; simp at h
    | some nb =>
      rw [hcur] at h
      simp only [Option.toList_some, List.mem_singleton] at h
      subst h
      exact hwf.2 c hcur

theorem recAt_slice (st : ConvState) (e : CdxEntry) (u t : String)
    (p : List Char) (h : recAt st e u t p) :
    ∃ stream, containerStream st e.warcFile = some stream ∧
      (stream.drop (e.offset + (headerBytes u t p.length).length)).take
        p.length = p := by
  obtain ⟨stream, hcs, hpre⟩ := h
  obtain ⟨rest, hrest⟩ := hpre
  refine ⟨stream, hcs, ?_⟩
  rw [← List.drop_drop, ← hrest]
  simp only [recordBytes, List.append_assoc]
  rw [List.drop_left, List.take_left]

theorem forall₂_url_map :
    ∀ {cdx : List CdxEntry} {written : List (String × String × List Char)},
      List.Forall₂ (fun e w => e.url = w.1) cdx written →
      cdx.map (·.url) = written.map (·.1) := by
  intro cdx written h
  induction h with
  | nil => rfl
  | cons h1 _ ih => simp [h1, ih]

end Archive

/-- C5 (corrected, counterexample): archiving a single unit with raw
bytes `AB` produces one index entry with `offset = 0` and `length = 2`,
but reading `length` bytes at `byte_offset` of the container stream
yields `WA` — the first two bytes of the record's WARC header — not the
unit's bytes, because the offset points at the record header while the
length counts only the payload. -/
theorem cdx_slice_yields_header_bytes :
    (Archive.runConv 1000 [bkC5x]).cdx =
      [⟨Archive.pageUrl "1" 5, 1, 0, 2⟩] ∧
    ((Archive.containerStream (Archive.runConv 1000 [bkC5x]) 1).map
      (fun stream => (stream.drop 0).take 2)) = some ['W', 'A'] ∧
    ['W', 'A'] ≠ ['A', 'B'] := by
  refine ⟨by decide, by decide, by decide⟩

/-- C5 (amended): every archived unit has exactly one index entry; the
entry's URL and payload length match the unit, and the unit's original
raw bytes are reproduced by reading `length` bytes starting at
`byte_offset` *plus the record header size* in the (uncompressed)
container stream — the slice starting at `byte_offset` itself begins
with the record header, not the payload. -/
theorem archive_index_slices (maxSize : Nat) (books : List Archive.Book)
    (hwfb : ∀ b ∈ books,
      b.pages ≠ [] ∧ b.pages.length = b.expectedPages) :
    ((Archive.runConv maxSize books).cdx.map (·.url) =
      (Archive.allRecords books).map (·.1)) ∧
    List.Forall₂
      (fun e w => e.url = w.1 ∧ e.length = w.2.2.length ∧
        ∃ stream,
          Archive.containerStream (Archive.runConv maxSize books)
            e.warcFile = some stream ∧
          (stream.drop
              (e.offset +
                (Archive.headerBytes w.1 w.2.1 w.2.2.length).length)).take
            w.2.2.length = w.2.2)
      (Archive.runConv maxSize books).cdx (Archive.allRecords books) ∧
    (((Archive.allRecords books).map (·.1)).Nodup →
      ∀ b ∈ books, ∀ p ∈ b.pages,
        ((Archive.runConv maxSize books).cdx.map (·.url)).count
          (Archive.pageUrl b.bookId p.1) = 1) := by
  have hinv := Archive.runConv_inv maxSize books hwfb
  have hmap : (Archive.runConv maxSize books).cdx.map (·.url) =
      (Archive.allRecords books).map (·.1) :=
    Archive.forall₂_url_map (hinv.imp fun e w h => h.1)
  refine ⟨hmap, ?_, ?_⟩
  · refine hinv.imp fun e w ⟨h1, h2, h3⟩ => ⟨h1, h2, ?_⟩
    obtain ⟨stream, hcs, hsl⟩ :=
      Archive.recAt_slice (Archive.runConv maxSize books) e w.1 w.2.1 w.2.2
        h3
    exact ⟨stream, hcs, by rw [← h2] at hsl ⊢; exact hsl⟩
  · intro hnodup b hb p hp
    rw [hmap]
    refine List.count_eq_one_of_mem hnodup ?_
    refine List.mem_map.mpr
      ⟨(Archive.pageUrl b.bookId p.1, b.timestamp, p.2), ?_, rfl⟩
    refine List.mem_flatMap.mpr ⟨b, hb, ?_⟩
    exact List.mem_map.mpr ⟨p, hp, rfl⟩

/-- C5 witness: the amended theorem at a concrete one-book run. -/
theorem archive_index_slices_witness :
    ((Archive.runConv 1000 [bkC5w]).cdx.map (·.url)).count
      (Archive.pageUrl "7" 3) = 1 :=
  (archive_index_slices 1000 [bkC5w] (by decide)).2.2 (by decide)
    bkC5w (by decide) (3, ['x']) (by decide)

/-- C4 (confirmed): `convert_book` accepts any book with a nonempty,
metadata-consistent page set, writes exactly one index entry per page
with all of them naming a single container file (the whole book — of
any size — lands in exactly one container), and the closed-container
count grows by one exactly when a container is open and its current
size plus the book's size estimate exceeds the bound; across a whole
run every container that was ever closed holds at least one record, so
the rotation condition's non-empty requirement is an invariant. -/
theorem archive_container_boundary :
    (∀ (maxSize : Nat) (b : Archive.Book) (s : Archive.ConvState),
      b.pages ≠ [] → b.pages.length = b.expectedPages →
      (Archive.convertBook maxSize b s).1 = true ∧
      (Archive.convertBook maxSize b s).2.closed.length =
        s.closed.length +
          (if s.current.isSome ∧
              s.currentSize + Archive.bookSize b > maxSize
            then 1 else 0) ∧
      ∃ num es, (Archive.convertBook maxSize b s).2.cdx = s.cdx ++ es ∧
        es.length = b.pages.length ∧ ∀ e ∈ es, e.warcFile = num) ∧
    (∀ (maxSize : Nat) (books : List Archive.Book),
      ∀ c ∈ (Archive.runConv maxSize books).closed, c.2 ≠ []) :=
  ⟨fun maxSize b s hne hexp => Archive.convertBook_c4 maxSize b s hne hexp,
    fun maxSize books => Archive.runConv_wf maxSize books⟩

/-- C4 witness: the theorem at a concrete one-page book converted into
the fresh converter state. -/
theorem archive_container_boundary_witness :
    (Archive.convertBook 1000 bkC4w Archive.initState).1 = true ∧
    (Archive.convertBook 1000 bkC4w Archive.initState).2.closed.length =
      Archive.initState.closed.length +
        (if Archive.initState.current.isSome ∧
            Archive.initState.currentSize + Archive.bookSize bkC4w > 1000
          then 1 else 0) ∧
    ∃ num es,
      (Archive.convertBook 1000 bkC4w Archive.initState).2.cdx =
        Archive.initState.cdx ++ es ∧
      es.length = bkC4w.pages.length ∧ ∀ e ∈ es, e.warcFile = num :=
  archive_container_boundary.1 1000 bkC4w Archive.initState (by decide)
    (by decide)

namespace NextButton

theorem chr_toNat (d : Nat) (hd : d < 10) :
    (Char.ofNat (d + 48)).toNat = d + 48 := by
  interval_cases d <;> decide

theorem strVal_go (l : List Char) :
    ∀ acc, l.foldl (fun acc c => acc * 10 + digitVal c) acc =
      acc * 10 ^ l.length + strVal l := by
  induction l with
  | nil => intro acc; simp [strVal]
  | cons c cs ih =>
    intro acc
    simp only [List.foldl_cons, strVal, List.length_cons]
    rw [ih (acc * 10 + digitVal c), ih (0 * 10 + digitVal c)]
    ring

theorem strVal_cons (c : Char) (cs : List Char) :
    strVal (c :: cs) = digitVal c * 10 ^ cs.length + strVal cs := by
  have h := strVal_go cs (0 * 10 + digitVal c)
  simpa [strVal] using h

theorem strVal_lt (l : List Char) (h : ∀ c ∈ l, IsDigitChar c) :
    strVal l < 10 ^ l.length := by
  induction l with
  | nil => simp [strVal]
  | cons c cs ih =>
    have hc := h c (List.mem_cons_self _ _)
    have hcs := ih fun x hx => h x (List.mem_cons_of_mem _ hx)
    rw [strVal_cons, List.length_cons, pow_succ]
    have hdc : digitVal c < 10 := by
      simp only [digitVal, IsDigitChar] at hc ⊢
      omega
    calc digitVal c * 10 ^ cs.length + strVal cs
        < digitVal c * 10 ^ cs.length + 10 ^ cs.length := by omega
      _ = (digitVal c + 1) * 10 ^ cs.length := by ring
      _ ≤ 10 * 10 ^ cs.length := by
          exact Nat.mul_le_mul_right _ (by omega)
      _ = 10 ^ cs.length * 10 := by ring

theorem lexLt_irrefl : ∀ l : List Char, lexLt l l = false := by
  intro l
  induction l with
  | nil => rfl
  | cons c cs ih =>
    rw [lexLt.eq_4]
    simp [ih]

theorem lexLt_iff_strVal :
    ∀ (x y : List Char), x.length = y.length →
      (∀ c ∈ x, IsDigitChar c) → (∀ c ∈ y, IsDigitChar c) →
      (lexLt x y = true ↔ strVal x < strVal y) := by
  intro x
  induction x with
  | nil =>
    intro y hlen _ _
    cases y with
    | nil => simp [lexLt.eq_1, strVal]
    | cons c cs => simp at hlen
  | cons a as ih =>
    intro y hlen hx hy
    cases y with
    | nil => simp at hlen
    | cons b bs =>
      have hlen' : as.length = bs.length := by simpa using hlen
      have ha := hx a (List.mem_cons_self _ _)
      have hb := hy b (List.mem_cons_self _ _)
      have has := fun c hc => hx c (List.mem_cons_of_mem _ hc)
      have hbs := fun c hc => hy c (List.mem_cons_of_mem _ hc)
      have hsa := strVal_lt as has
      have hsb := strVal_lt bs hbs
      rw [strVal_cons, strVal_cons, hlen']
      rw [lexLt.eq_4]
      by_cases h1 : a.toNat < b.toNat
      · rw [if_pos h1]
        have hda : digitVal a < digitVal b := by
          simp only [digitVal, IsDigitChar] at ha hb ⊢
          omega
        simp only [true_iff]
        calc digitVal a * 10 ^ bs.length + strVal as
            < digitVal a * 10 ^ bs.length + 10 ^ bs.length := by
              rw [hlen'] at hsa; omega
          _ = (digitVal a + 1) * 10 ^ bs.length := by ring
          _ ≤ digitVal b * 10 ^ bs.length :=
              Nat.mul_le_mul_right _ (by omega)
          _ ≤ digitVal b * 10 ^ bs.length + strVal bs := by omega
      · rw [if_neg h1]
        by_cases h2 : b.toNat < a.toNat
        · rw [if_pos h2]
          have hda : digitVal b < digitVal a := by
            simp only [digitVal, IsDigitChar] at ha hb ⊢
            omega
          simp only [Bool.false_eq_true, false_iff, not_lt]
          refine le_of_lt ?_
          calc digitVal b * 10 ^ bs.length + strVal bs
              < digitVal b * 10 ^ bs.length + 10 ^ bs.length := by omega
            _ = (digitVal b + 1) * 10 ^ bs.length := by ring
            _ ≤ digitVal a * 10 ^ bs.length :=
                Nat.mul_le_mul_right _ (by omega)
            _ ≤ digitVal a * 10 ^ bs.length + strVal as := by omega
        · rw [if_neg h2]
          have hab : digitVal a = digitVal b := by
            simp only [digitVal]
            omega
          rw [hab, ih bs hlen' has hbs]
          omega

end NextButton

namespace NextButton


theorem decDigitsAux_eq (fuel : Nat) :
    ∀ n, n ≤ fuel → decDigitsAux fuel n = Nat.digits 10 n := by
  induction fuel with
  | zero =>
    intro n hn
    interval_cases n
    simp [decDigitsAux, Nat.digits_zero]
  | succ fuel ih =>
    intro n hn
    by_cases h0 : n = 0
    · subst h0; simp [decDigitsAux, Nat.digits_zero]
    · rw [decDigitsAux, if_neg h0,
        Nat.digits_def' (by norm_num : (1:Nat) < 10) (Nat.pos_of_ne_zero h0),
        ih (n / 10) (by
          have := Nat.div_lt_self (Nat.pos_of_ne_zero h0)
            (by norm_num : (1:Nat) < 10)
          omega)]

theorem decRepr_digits (n : Nat) : ∀ c ∈ decRepr n, IsDigitChar c := by
  intro c hc
  by_cases h0 : n = 0
  · subst h0
    rw [show decRepr 0 = ['0'] from rfl] at hc
    simp only [List.mem_singleton] at hc
    subst hc
    exact ⟨by decide, by decide⟩
  · simp only [decRepr, if_neg h0] at hc
    rw [decDigitsAux_eq n n le_rfl] at hc
    simp only [List.mem_map, List.mem_reverse] at hc
    obtain ⟨d, hd, rfl⟩ := hc
    have hlt : d < 10 := Nat.digits_lt_base (by norm_num) hd
    constructor
    · rw [chr_toNat d hlt]; omega
    · rw [chr_toNat d hlt]; omega

theorem strVal_append_singleton (x : List Char) (c : Char) :
    strVal (x ++ [c]) = strVal x * 10 + digitVal c := by
  simp [strVal, List.foldl_append]

theorem strVal_reverse_map (L : List Nat) (h : ∀ d ∈ L, d < 10) :
    strVal (L.reverse.map (fun d => Char.ofNat (d + 48))) =
      Nat.ofDigits 10 L := by
  induction L with
  | nil => simp [strVal, Nat.ofDigits]
  | cons d L ih =>
    have hd : d < 10 := h d (List.mem_cons_self _ _)
    have hL := ih fun x hx => h x (List.mem_cons_of_mem _ hx)
    rw [List.reverse_cons, List.map_append, List.map_singleton,
      strVal_append_singleton, hL, Nat.ofDigits_cons]
    have : digitVal (Char.ofNat (d + 48)) = d := by
      simp [digitVal, chr_toNat d hd]
    rw [this]
    ring

theorem strVal_decRepr (n : Nat) : strVal (decRepr n) = n := by
  by_cases h0 : n = 0
  · subst h0; decide
  · simp only [decRepr, if_neg h0]
    rw [decDigitsAux_eq n n le_rfl]
    rw [strVal_reverse_map (Nat.digits 10 n)
      (fun d hd => Nat.digits_lt_base (by norm_num) hd)]
    exact Nat.ofDigits_digits 10 n

theorem lexLt_decRepr (m n : Nat)
    (hlen : (decRepr m).length = (decRepr n).length) :
    lexLt (decRepr m) (decRepr n) = decide (m < n) := by
  have h := lexLt_iff_strVal (decRepr m) (decRepr n) hlen
    (decRepr_digits m) (decRepr_digits n)
  rw [strVal_decRepr, strVal_decRepr] at h
  by_cases hmn : m < n
  · rw [h.mpr hmn, decide_eq_true hmn]
  · cases hb : lexLt (decRepr m) (decRepr n) with
    | false => rw [decide_eq_false hmn]
    | true => exact absurd (h.mp hb) hmn

theorem lexLt_append_left (p x y : List Char) :
    lexLt (p ++ x) (p ++ y) = lexLt x y := by
  induction p with
  | nil => simp
  | cons a p ih =>
    rw [List.cons_append, List.cons_append, lexLt.eq_4]
    simp [Nat.lt_irrefl, ih]

theorem lexLt_append_suffix (s : List Char) :
    ∀ (x y : List Char), x.length = y.length →
      lexLt (x ++ s) (y ++ s) = lexLt x y := by
  intro x
  induction x with
  | nil =>
    intro y hlen
    cases y with
    | nil => simp [lexLt_irrefl, lexLt.eq_1]
    | cons b bs => simp at hlen
  | cons a as ih =>
    intro y hlen
    cases y with
    | nil => simp at hlen
    | cons b bs =>
      rw [List.cons_append, List.cons_append, lexLt.eq_4, lexLt.eq_4,
        ih bs (by simpa using hlen)]

theorem lexLt_filename (bookId : String) (a b : Nat)
    (hlen : (decRepr a).length = (decRepr b).length) :
    lexLt (filenameChars bookId a) (filenameChars bookId b) =
      decide (a < b) := by
  simp only [filenameChars]
  rw [List.append_assoc, List.append_assoc, lexLt_append_left,
    lexLt_append_suffix _ _ _ hlen, lexLt_decRepr a b hlen]

theorem fold_argmax (bookId : String) (D : Nat) :
    ∀ (t : List Nat) (h : Nat), (decRepr h).length = D →
      (∀ x ∈ t, (decRepr x).length = D) →
      t.foldl
        (fun best s =>
          if lexLt (filenameChars bookId best) (filenameChars bookId s)
          then s else best) h = t.foldl Nat.max h := by
  intro t
  induction t with
  | nil => intro h _ _; rfl
  | cons s rest ih =>
    intro h hh hrest
    have hs : (decRepr s).length = D := hrest s (List.mem_cons_self _ _)
    simp only [List.foldl_cons]
    rw [lexLt_filename bookId h s (by rw [hh, hs])]
    have hstep : (if decide (h < s) = true then s else h) = Nat.max h s := by
      by_cases hc : h < s
      · simp [hc, Nat.max_eq_right (le_of_lt hc)]
      · have hmax : Nat.max h s = h := Nat.max_eq_left (by omega)
        simp [hc, hmax]
    rw [hstep]
    refine ih (Nat.max h s) ?_ fun x hx => hrest x (List.mem_cons_of_mem _ hx)
    by_cases hc2 : h ≤ s
    · have hmax : Nat.max h s = s := by simp [Nat.max_def, hc2]
      rw [hmax, hs]
    · have hmax : Nat.max h s = h := by simp [Nat.max_def, hc2]
      rw [hmax, hh]

end NextButton

/-- C10 (confirmed): `verify_book` bases its verdict on the section
file whose name `sorted(...)` places last, i.e. the lexicographically
greatest filename; when every sequence number of the book has the same
number of decimal digits this is exactly the numerically highest
section, and the verdict tests that section's next button — but with
mixed digit counts the guarantee fails: for sections `{2, 10}` the
lexicographically last file is section 2, not the numeric maximum 10,
and the verdict follows section 2's next button. -/
theorem next_button_checks_lexicographically_last :
    (∀ (bookId : String) (h : Nat) (t : List Nat) (hasNext : Nat → Bool),
      (∀ x ∈ h :: t,
        (NextButton.decRepr x).length = (NextButton.decRepr h).length) →
      NextButton.lastFileSeq bookId (h :: t) = some (Gaps.maxSec h t) ∧
      NextButton.verifyBook bookId (h :: t) hasNext =
        (if hasNext (Gaps.maxSec h t) then "incomplete"
          else "verified_complete")) ∧
    (NextButton.lastFileSeq "77" [2, 10] = some 2 ∧
      Gaps.maxSec 2 [10] = 10 ∧
      NextButton.verifyBook "77" [2, 10] (fun s => s == 2) = "incomplete" ∧
      NextButton.verifyBook "77" [2, 10] (fun s => s == 10) =
        "verified_complete" ∧
      (NextButton.decRepr 2).length ≠ (NextButton.decRepr 10).length) := by
  constructor
  · intro bookId h t hasNext hlen
    have hfold : NextButton.lastFileSeq bookId (h :: t) =
        some (t.foldl Nat.max h) := by
      simp only [NextButton.lastFileSeq]
      rw [NextButton.fold_argmax bookId (NextButton.decRepr h).length t h rfl
        (fun x hx => hlen x (List.mem_cons_of_mem _ hx))]
    refine ⟨hfold, ?_⟩
    simp only [NextButton.verifyBook, hfold]
    rfl
  · refine ⟨by decide, by decide, by decide, by decide, by decide⟩

/-- C10 witness: the theorem at a concrete uniform-digit book. -/
theorem next_button_checks_lexicographically_last_witness :
    NextButton.lastFileSeq "5" [3, 7] = some (Gaps.maxSec 3 [7]) ∧
    NextButton.verifyBook "5" [3, 7] (fun _ => false) =
      (if (fun _ => false : Nat → Bool) (Gaps.maxSec 3 [7]) then "incomplete"
        else "verified_complete") :=
  next_button_checks_lexicographically_last.1 "5" 3 [7] (fun _ => false)
    (by decide)
